import Mathlib

/-!
Verification development for the compliance-requirement derivation and
analysis-orchestration subsystem (knowledge_base.py, app/routes.py,
app/services/ai_service.py).

The Python code is shallowly embedded: Python dicts become association
lists with first-match lookup and in-place update, Python sets become
membership-checked lists, strings are manipulated through their
character lists (so that every definition evaluates by kernel
reduction), and the unspecified iteration order of a Python `set` is an
explicit parameter wherever the source iterates a set whose order can
leak into the output.
-/

namespace Mnenja

/-! ## Python string primitives

All string functions are defined over `List Char` so that they compute
by structural recursion.  Case mapping is ASCII-only (the source applies
`str.upper`/`str.lower` to ASCII land-use codes and keyword patterns).
-/

/-- ASCII uppercase of one character (model of Python `str.upper` per char). -/
def upChar (c : Char) : Char :=
  if 97 ≤ c.toNat ∧ c.toNat ≤ 122 then Char.ofNat (c.toNat - 32) else c

/-- ASCII lowercase of one character (model of Python `str.lower` per char). -/
def lowChar (c : Char) : Char :=
  if 65 ≤ c.toNat ∧ c.toNat ≤ 90 then Char.ofNat (c.toNat + 32) else c

/-- Python `s.upper()` (ASCII). -/
def pyUpper (s : String) : String := ⟨s.data.map upChar⟩

/-- Python `s.lower()` (ASCII). -/
def pyLower (s : String) : String := ⟨s.data.map lowChar⟩

/-- Whitespace test used by `str.strip` and `str.split`. -/
def isWS (c : Char) : Bool := c.isWhitespace

/-- Python `s.strip()` on character lists. -/
def stripChars (l : List Char) : List Char :=
  ((l.dropWhile isWS).reverse.dropWhile isWS).reverse

/-- Python `s.strip()`. -/
def pyStrip (s : String) : String := ⟨stripChars s.data⟩

/-! ## Python dict and set primitives -/

variable {κ : Type} {α : Type} [DecidableEq κ]

/-- Python `d.get(k)` / `d[k]`: first-match lookup in an association list.
A Python dict never holds duplicate keys, so first match is the match. -/
def dget (k : κ) : List (κ × α) → Option α
  | [] => none
  | (k', v) :: t => if k = k' then some v else dget k t

/-- Python `d[k] = v`: replace in place if the key is present, else append. -/
def dinsert (k : κ) (v : α) : List (κ × α) → List (κ × α)
  | [] => [(k, v)]
  | (k', v') :: t => if k = k' then (k', v) :: t else (k', v') :: dinsert k v t

/-- Python `a.update(b)` and `{**a, **b}`: fold the updates into `a`. -/
def dupdate (a b : List (κ × α)) : List (κ × α) :=
  b.foldl (fun d kv => dinsert kv.1 kv.2 d) a

/-- Python `s.add(x)` for a set modelled as a duplicate-free list. -/
def sadd [DecidableEq α] (x : α) (s : List α) : List α :=
  if x ∈ s then s else x :: s

/-! ## Progress tracker (app/routes.py)

`SessionProgress` embeds the progress dicts written to the session cache.
-/

/-- One progress snapshot, as stored under `progress:<session_id>`. -/
structure SessionProgress where
  step : Nat
  total_steps : Nat
  message : String
  percentage : Nat
  completed : Bool := false
  error : Bool := false
deriving DecidableEq, Repr

/-- Default snapshot fabricated by `get_progress` when the cache has no
entry for the session. -/
def defaultProgressReply : SessionProgress :=
  { step := 0, total_steps := 4, message := "Inicializacija...", percentage := 0 }

/-- Reply of the `/progress/{session_id}` endpoint. -/
inductive PollReply where
  | payload (p : SessionProgress)
  | http404
deriving DecidableEq, Repr

/-- `get_progress` (app/routes.py): returns the cached snapshot, or the
fabricated default when none exists.  It never returns 404. -/
def get_progress (cached : Option SessionProgress) : PollReply :=
  match cached with
  | none => .payload defaultProgressReply
  | some p => .payload p

/-- Reply of the `/extract-data/result` and `/analyze-report/result`
endpoints. -/
inductive StatusReply (α : Type) where
  | processing (p : SessionProgress)
  | completed (d : α)
  | errorReply (m : String)
  | http404
deriving DecidableEq, Repr

/-- `get_extract_data_result` (app/routes.py): 404 when no progress
snapshot exists; otherwise processing / error / completed-with-data,
404 again when the result payload is missing. -/
def get_extract_data_result (progress : Option SessionProgress)
    (result : Option α) : StatusReply α :=
  match progress with
  | none => .http404
  | some p =>
    if !p.completed then .processing p
    else if p.error then .errorReply p.message
    else match result with
      | none => .http404
      | some d => .completed d

/-- `get_analyze_report_result` (app/routes.py): same shape as
`get_extract_data_result`, reading `analysis_result:<id>`. -/
def get_analyze_report_result (progress : Option SessionProgress)
    (result : Option α) : StatusReply α :=
  match progress with
  | none => .http404
  | some p =>
    if !p.completed then .processing p
    else if p.error then .errorReply p.message
    else match result with
      | none => .http404
      | some d => .completed d

/-! ## Progress traces of `_process_analyze_report_background`

The background task writes a fixed sequence of snapshots; an exception
anywhere in the `try` block interrupts the sequence after some prefix
and the `except` handler then writes the terminal error snapshot.  The
first snapshot is written by the `/analyze-report` endpoint itself
before the task starts.
-/

/-- The snapshots written on the success path, in write order
(app/routes.py lines 611-567). -/
def analyzeSuccessTrace : List SessionProgress :=
  [ { step := 1, total_steps := 5, message := "Inicializacija analize skladnosti...", percentage := 0 },
    { step := 2, total_steps := 5, message := "Generiranje zahtev skladnosti iz prostorskih aktov...", percentage := 15 },
    { step := 3, total_steps := 5, message := "Pripravljam AI analizo...", percentage := 30 },
    { step := 4, total_steps := 5, message := "AI analiza poteka...", percentage := 40 },
    { step := 5, total_steps := 5, message := "Procesiranje rezultatov...", percentage := 90 },
    { step := 5, total_steps := 5, message := "Analiza končana!", percentage := 100, completed := true } ]

/-- The terminal snapshot written by the `except` handler: step and
percentage are reset to 0. -/
def analyzeErrorSnapshot (msg : String) : SessionProgress :=
  { step := 0, total_steps := 5, message := "Napaka: " ++ msg, percentage := 0,
    completed := true, error := true }

/-- Trace of a run that fails after its first `k` snapshot writes. -/
def analyzeFailTrace (k : Nat) (msg : String) : List SessionProgress :=
  analyzeSuccessTrace.take k ++ [analyzeErrorSnapshot msg]

/-- Non-decreasing adjacent values of `f` along a trace. -/
def monoChain (f : SessionProgress → Nat) : List SessionProgress → Bool
  | [] => true
  | [_] => true
  | a :: b :: t => decide (f a ≤ f b) && monoChain f (b :: t)

/-- Non-decreasing `step` along a snapshot trace. -/
abbrev stepMono (l : List SessionProgress) : Prop :=
  monoChain (fun p => p.step) l = true

/-- Non-decreasing `percentage` along a snapshot trace. -/
abbrev pctMono (l : List SessionProgress) : Prop :=
  monoChain (fun p => p.percentage) l = true

/-! ## Result reconciler (`confirm_report`, app/routes.py lines 830-877)

Requirement ids arrive from JSON payloads either as strings or as
integers; `PKey` embeds that distinction.  A `ResultEntry` value is a
dict of string fields.
-/

/-- A Python scalar used as a result-map key: an int or a string. -/
inductive PKey where
  | intK (n : Int)
  | strK (s : String)
deriving DecidableEq, Repr

/-- The two key types occurring in result maps (`type(key)` in the source). -/
inductive PTy where
  | intT
  | strT
deriving DecidableEq, Repr

/-- Python `type(k)`. -/
def tyOf : PKey → PTy
  | .intK _ => .intT
  | .strK _ => .strT

/-- Python `str(n)` for an int. -/
def intStr (n : Int) : String :=
  if n < 0 then "-" ++ Nat.repr n.natAbs else Nat.repr n.natAbs

/-- Python `str(k)` for a key. -/
def keyStr : PKey → String
  | .intK n => intStr n
  | .strK s => s

/-- Value of a non-empty all-digit character list. -/
def digitsVal (l : List Char) : Option Nat :=
  if !l.isEmpty && l.all Char.isDigit then
    some (l.foldl (fun a c => 10 * a + (c.toNat - 48)) 0)
  else none

/-- Python `int(s)` on a string: optional sign and decimal digits after
stripping whitespace; `none` models the `ValueError`. -/
def pyIntOfString (s : String) : Option Int :=
  match stripChars s.data with
  | '-' :: rest => (digitsVal rest).map (fun n => -(n : Int))
  | '+' :: rest => (digitsVal rest).map (fun n => (n : Int))
  | l => (digitsVal l).map (fun n => (n : Int))

/-- Python `s.isdigit()` (ASCII digits). -/
def pyIsDigit (s : String) : Bool :=
  !s.data.isEmpty && s.data.all Char.isDigit

/-- `preferred_type(raw_key)`: coerce a key to the other representation.
The same-type cases are identities (they cannot be reached at the call
site, which requires `not isinstance(raw_key, preferred_type)`). -/
def coerceKey (t : PTy) (k : PKey) : Option PKey :=
  match t, k with
  | .intT, .strK s => (pyIntOfString s).map .intK
  | .strT, .intK n => some (.strK (intStr n))
  | _, _ => some k

/-- One `ResultEntry` value: a dict of string fields. -/
abbrev Entry : Type := List (String × String)

/-- The canonical result map with heterogeneously typed keys. -/
abbrev PDict : Type := List (PKey × Entry)

/-- `existing_key_lookup`: index from `str(key)` to the key's stored
representation, built by inserting the existing keys in order. -/
def buildKeyIndex (existing : PDict) : List (String × PKey) :=
  existing.foldl (fun idx kv => dinsert (keyStr kv.1) kv.1 idx) []

/-- `preferred_type`: the type of the first value of `existing_key_lookup`
(insertion order), or `none` when the map is empty. -/
def preferredType (idx : List (String × PKey)) : Option PTy :=
  match idx with
  | [] => none
  | (_, k) :: _ => some (tyOf k)

/-- One iteration of the `for raw_key, value in payload.updated_results_map`
loop of `confirm_report`.  Python's `target_key is raw_key` is modelled
as "the string-index lookup missed" (a lookup hit returns a distinct
stored object). -/
def mergeStep (pref : Option PTy) (st : PDict × List (String × PKey))
    (kv : PKey × Entry) : PDict × List (String × PKey) :=
  let merged := st.1
  let idx := st.2
  let rawKey := kv.1
  let value := kv.2
  let hit := dget (keyStr rawKey) idx
  let target1 : PKey :=
    match hit with
    | some k => k
    | none =>
      match pref with
      | some t =>
        if tyOf rawKey ≠ t then
          match coerceKey t rawKey with
          | some ck => if keyStr ck = keyStr rawKey then ck else rawKey
          | none => rawKey
        else rawKey
      | none => rawKey
  let target2 : PKey :=
    if hit = none ∧ target1 = rawKey then
      match rawKey with
      | .strK s =>
        if pyIsDigit s ∧ pref = some .intT then
          match pyIntOfString s with
          | some n => .intK n
          | none => rawKey
        else rawKey
      | .intK _ => rawKey
    else target1
  let base : Entry := (dget target2 merged).getD []
  (dinsert target2 (dupdate base value) merged,
   dinsert (keyStr target2) target2 idx)

/-- The reconciliation of `confirm_report`: merge an incoming update map
into the existing canonical `results_map`. -/
def mergeResults (existing : PDict) (updates : List (PKey × Entry)) : PDict :=
  let idx0 := buildKeyIndex existing
  let pref := preferredType idx0
  (updates.foldl (mergeStep pref) (existing, idx0)).1

/-- The one-step combined update of two update maps: `A`'s entries with
`B`'s entries folded on top, same-key entries shallow-merged field-wise
(`A` fields overwritten by `B` fields). -/
def combineUpdates (a b : List (PKey × Entry)) : List (PKey × Entry) :=
  b.foldl (fun acc kv =>
    match dget kv.1 acc with
    | some e => dinsert kv.1 (dupdate e kv.2) acc
    | none => acc ++ [kv]) a

/-! ## Judgment orchestration (app/routes.py, app/services/ai_service.py) -/

/-- One derived requirement record (`zahteva` dict in knowledge_base.py). -/
structure Zahteva where
  kategorija : String
  naslov : String
  besedilo : String
  clen : String
  id : String := ""
deriving DecidableEq, Repr

/-- `chunk_list` helper: structural recursion with fuel `f ≥ l.length`. -/
def chunkAux (s : Nat) : Nat → List α → List (List α)
  | _, [] => []
  | 0, _ :: _ => []
  | f + 1, x :: xs => ((x :: xs).take s) :: chunkAux s f ((x :: xs).drop s)

/-- `chunk_list(data, size)` (app/routes.py): contiguous batches of at
most `size`, preserving order.  `size = 0` is a `ValueError` in the
source (`range` step 0) and yields `[]` here; it is never used. -/
def chunk_list (size : Nat) (l : List α) : List (List α) :=
  match size with
  | 0 => []
  | s + 1 => chunkAux (s + 1) l.length l

/-- Outcome of one batch's `analyze_compliance` call as seen by the
orchestration loop: the gather returned an exception, the response text
failed to parse (invalid JSON or not a list), or a JSON array of item
objects. -/
inductive AIOutcome where
  | exn
  | unparseable
  | ok (items : List Entry)
deriving DecidableEq, Repr

/-- The placeholder entry synthesized by `parse_ai_response` for an
expected requirement id the service did not answer. -/
def placeholderEntry (i : String) : Entry :=
  [(("id"), i),
   (("obrazlozitev"), "AI ni uspel generirati odgovora."),
   (("evidence"), "—"),
   (("skladnost"), "Neznano"),
   (("predlagani_ukrep"), "Ročno preverjanje.")]

/-- `AIService.parse_ai_response` on an already-decoded JSON array:
index the items by their truthy `id` field, then add a placeholder for
every expected requirement whose id is missing. -/
def parse_ai_response (items : List Entry) (expected : List Zahteva) :
    List (String × Entry) :=
  let rm : List (String × Entry) := items.foldl (fun m item =>
    match dget ("id") item with
    | some idv => if idv = "" then m else dinsert idv item m
    | none => m) []
  expected.foldl (fun m z =>
    if (dget z.id m).isSome then m else dinsert z.id (placeholderEntry z.id) m) rm

/-- The fan-in loop of `_process_analyze_report_background` (lines
521-530): failed or unparseable batches are skipped, parsed batches are
folded into the combined map with `dict.update`. -/
def combineChunkResults (existing : List (String × Entry))
    (pairs : List (AIOutcome × List Zahteva)) : List (String × Entry) :=
  pairs.foldl (fun m rc =>
    match rc.1 with
    | .ok items => dupdate m (parse_ai_response items rc.2)
    | _ => m) existing

/-- End-to-end result map of one analysis run: chunk the selected
requirements, pair each chunk with its batch outcome (`zip` truncates
exactly as Python's `zip` does), and fan in. -/
def analyzeResultsMap (size : Nat) (existing : List (String × Entry))
    (selected : List Zahteva) (responses : List AIOutcome) :
    List (String × Entry) :=
  combineChunkResults existing (responses.zip (chunk_list size selected))

/-! ## Knowledge base (knowledge_base.py)

The rule catalog pieces (`clen_data_map`, the general-clause dict, the
priloga 2 table, the priloga 1 permission matrix) are inputs; they are
produced by `load_knowledge_base` from external JSON documents.
-/

mutual
/-- A JSON-ish Python value inside a clause's `content_structured`. -/
inductive PyVal where
  | s (v : String)
  | dict (l : PyPairs)
  | arr (l : PyItems)

/-- Key-value pairs of a nested Python dict, in insertion order. -/
inductive PyPairs where
  | nil
  | cons (k : String) (v : PyVal) (t : PyPairs)

/-- Items of a nested Python list. -/
inductive PyItems where
  | nil
  | cons (v : PyVal) (t : PyItems)
end

deriving instance DecidableEq for PyVal
deriving instance DecidableEq for PyPairs
deriving instance DecidableEq for PyItems

mutual
/-- Python `repr` of a nested value (used when an f-string interpolates
a non-string sub-value). -/
def pyReprVal : PyVal → String
  | .s v => "\x27" ++ v ++ "\x27"
  | .dict l => "\x7b" ++ pyJoinReprPairs l ++ "\x7d"
  | .arr l => "[" ++ pyJoinReprItems l ++ "]"

def pyJoinReprPairs : PyPairs → String
  | .nil => ""
  | .cons k v .nil => "\x27" ++ k ++ "\x27: " ++ pyReprVal v
  | .cons k v t => "\x27" ++ k ++ "\x27: " ++ pyReprVal v ++ ", " ++ pyJoinReprPairs t

def pyJoinReprItems : PyItems → String
  | .nil => ""
  | .cons v .nil => pyReprVal v
  | .cons v t => pyReprVal v ++ ", " ++ pyJoinReprItems t
end

/-- Python `str` of a value, as f-string interpolation renders it. -/
def pyStrVal : PyVal → String
  | .s v => v
  | v => pyReprVal v

/-- Python `sep.join(l)`. -/
def pyJoin (sep : String) : List String → String
  | [] => ""
  | [x] => x
  | x :: t => x ++ sep ++ pyJoin sep t

/-- Python `str.capitalize()`: first character uppercased, rest lowered
(ASCII). -/
def pyCapitalize (s : String) : String :=
  match s.data with
  | [] => s
  | c :: rest => ⟨upChar c :: rest.map lowChar⟩

/-- Python `str.replace` helper with fuel (`fuel ≥ length` is exact). -/
def replAux (pat rep : List Char) : Nat → List Char → List Char
  | _, [] => []
  | 0, l => l
  | f + 1, c :: t =>
    if pat.isPrefixOf (c :: t) && !pat.isEmpty then
      rep ++ replAux pat rep f (List.drop (pat.length - 1) t)
    else c :: replAux pat rep f t

/-- Python `s.replace(pat, rep)`: all non-overlapping occurrences, left
to right (only used with non-empty patterns). -/
def pyReplace (s pat rep : String) : String :=
  ⟨replAux pat.data rep.data s.data.length s.data⟩

/-- Sub-bullet lines of a nested dict value. -/
def subDictLines : PyPairs → List String
  | .nil => []
  | .cons k v t => ("  - " ++ pyReplace k ("_") (" ") ++ ": " ++ pyStrVal v) :: subDictLines t

/-- Sub-bullet lines of a nested list value. -/
def subArrLines : PyItems → List String
  | .nil => []
  | .cons v t => ("  - " ++ pyStrVal v) :: subArrLines t

/-- `format_structured_content`, line builder. -/
def fscLines : PyPairs → List String
  | .nil => []
  | .cons k (.dict subs) t =>
    ("\n- " ++ pyCapitalize (pyReplace k ("_") (" ")) ++ ":")
      :: subDictLines subs ++ fscLines t
  | .cons k (.arr items) t =>
    ("\n- " ++ pyCapitalize (pyReplace k ("_") (" ")) ++ ":")
      :: subArrLines items ++ fscLines t
  | .cons k (.s v) t =>
    ("- " ++ pyCapitalize (pyReplace k ("_") (" ")) ++ ": " ++ v) :: fscLines t

/-- `format_structured_content` (knowledge_base.py): flat bulleted text
from the nested attribute dict. -/
def format_structured_content (d : PyPairs) : String :=
  pyJoin "\n" (fscLines d)

/-- One entry of `clen_data_map`: a land-use clause keyed by the
uppercase land-use code. -/
structure ClenData where
  title : String
  podrocje_naziv : String
  content_structured : PyPairs
  parent_clen_key : String
deriving DecidableEq

/-- The catalog map from uppercase land-use code to clause data. -/
abbrev ClenMap : Type := List (String × ClenData)

/-! ### Reference extraction (`extract_referenced_namenske_rabe`)

The source scans the formatted clause text with eight case-insensitive
regexes, each a fixed Slovene word sequence (words separated by `\s+`)
followed by a captured code `([A-Z]{1,3}[a-z]?)\b` (with `re.IGNORECASE`
the classes match either case).  The model matches whole
whitespace-separated tokens: each pattern word must equal one token (up
to ASCII case), and the captured code is the maximal run of Latin
letters starting the next token, accepted when it is 1-4 letters long
and followed by a non-word character or the token end (the `\b`). -/

/-- ASCII Latin letter (what `[A-Z]`/`[a-z]` match under IGNORECASE). -/
def isLatin (c : Char) : Bool :=
  (65 ≤ c.toNat && c.toNat ≤ 90) || (97 ≤ c.toNat && c.toNat ≤ 122)

/-- Word character for the `\b` boundary: Latin letter, digit,
underscore, or any non-ASCII character (Slovene letters are word
characters in Python's `re`). -/
def isWordChar (c : Char) : Bool :=
  isLatin c || c.isDigit || c = '_' || decide (127 < c.toNat)

/-- Capture `([A-Z]{1,3}[a-z]?)\b` at the start of a token. -/
def codeCapture (tok : String) : Option String :=
  let p := tok.data.takeWhile isLatin
  let rest := tok.data.drop p.length
  if (decide (1 ≤ p.length) && decide (p.length ≤ 4)
      && rest.head?.all (fun c => !isWordChar c)) then
    some ⟨p⟩
  else none

/-- Whitespace tokenizer (`\s+` separates pattern words). -/
def wordsAux : List Char → List Char → List String
  | cur, [] => if cur.isEmpty then [] else [⟨cur.reverse⟩]
  | cur, c :: t =>
    if isWS c then
      if cur.isEmpty then wordsAux [] t else (⟨cur.reverse⟩ : String) :: wordsAux [] t
    else wordsAux (c :: cur) t

/-- Split a text into whitespace-separated tokens. -/
def pyTokens (s : String) : List String := wordsAux [] s.data

/-- Match one pattern (word alternative sets then capture) at the head
of a token list. -/
def matchPhrase : List (List String) → List String → Option String
  | [], tok :: _ => codeCapture tok
  | [], [] => none
  | opts :: rest, w :: t => if (pyLower w) ∈ opts then matchPhrase rest t else none
  | _ :: _, [] => none

/-- All captures of one pattern over a token list (`re.findall`). -/
def phraseFinds (phrase : List (List String)) : List String → List String
  | [] => []
  | w :: t =>
    match matchPhrase phrase (w :: t) with
    | some m => m :: phraseFinds phrase t
    | none => phraseFinds phrase t

/-- Word alternatives of `pogoj[ie]?`. -/
def pogojOpts : List String := ["pogoj", "pogoji", "pogoje"]

/-- Word alternatives of `velj[a]?[jo]?` (`[jo]` is the character class
with `j` and `o`). -/
def veljOpts : List String := ["velj", "velja", "veljj", "veljo", "veljaj", "veljao"]

/-- Word alternatives of `upoštev[a]?[jo]?`. -/
def upostevOpts : List String :=
  ["upoštev", "upošteva", "upoštevj", "upoštevo", "upoštevaj", "upoštevao"]

/-- Word alternatives of `prevzem[a]?[jo]?`. -/
def prevzemOpts : List String :=
  ["prevzem", "prevzema", "prevzemj", "prevzemo", "prevzemaj", "prevzemao"]

/-- The eight reference patterns, in source order. -/
def refPhrases : List (List (List String)) :=
  [ [pogojOpts, ["za"]],
    [["kot"], ["pri"]],
    [veljOpts, ["določila"], ["za"]],
    [["smiselno"], veljOpts, ["za"]],
    [upostevOpts, ["se"], pogojOpts, ["za"]],
    [["skladno"], ["s"], pogojOpts, ["za"]],
    [prevzemOpts, ["določila"], ["za"]],
    [["določila"], ["za"]] ]

/-- All captured codes in a clause text, uppercased, pattern-major then
text order (`referenced` before the `set(...)`). -/
def collectRefs (content : String) : List String :=
  ((refPhrases.map (fun ph => phraseFinds ph (pyTokens content))).flatten).map pyUpper

/-- `extract_referenced_namenske_rabe`: the capture list is deduplicated
through a Python `set` whose iteration order is implementation-defined;
`ord` is that enumeration order (any function applied to the
deduplicated list), and the result is filtered to codes present in the
catalog. -/
def extract_referenced_namenske_rabe (ord : List String → List String)
    (clenMap : ClenMap) (content : String) : List String :=
  (ord (collectRefs content).dedup).filter (fun r => (dget r clenMap).isSome)

/-! ### Requirement derivation (`build_requirements_from_db`) -/

/-- Category string of the mandatory/triggered general clauses. -/
def splosniKat : String := "Splošni prostorski izvedbeni pogoji (PIP)"

/-- Category string of the direct land-use clauses. -/
def podrobniKat : String := "Podrobni prostorski izvedbeni pogoji (PIP NRP)"

/-- Category string of the planning-unit clauses. -/
def posebniEupKat : String := "Posebni prostorski izvedbeni pogoji (PIP EUP)"

/-- Category string of the priloga-1 permissibility requirement. -/
def priloga1Kat : String := "Skladnost z Prilogo 1 (Enostavni/Nezahtevni objekti)"

/-- Suffix appended to the category on each recursive referred-to hop. -/
def napotiloSuffix : String := " - Napotilo"

/-- Clause number text of a land-use clause
(`parent_clen_key.replace('_clen', '')`). -/
def clenNumOf (cd : ClenData) : String := pyReplace cd.parent_clen_key ("_clen") ("")

/-- Title of an emitted land-use requirement. -/
def mkNaslovNRP (raba : String) (cd : ClenData) : String :=
  clenNumOf cd ++ ". člen - " ++ cd.podrocje_naziv ++ " (" ++ raba ++ ")"

/-- Citation label of an emitted land-use requirement. -/
def mkClenLabelNRP (cd : ClenData) : String := clenNumOf cd ++ ". člen"

/-- Mutable state of one derivation run: the emitted list and the two
visited sets. -/
structure DeriveState where
  zahteve : List Zahteva
  dodane_namenske_rabe : List String
  dodani_cleni : List String
deriving DecidableEq, Repr

/-- The reference loop at the end of `add_podrobni_pogoji`:
`step` is the recursive call one fuel level down. -/
def refsGo (step : String → String → DeriveState → DeriveState)
    (orig : List String) : List String → String → DeriveState → DeriveState
  | [], _, st => st
  | r :: rs, kat, st =>
    let st' := if r ∈ orig then st else step r (kat ++ napotiloSuffix) st
    refsGo step orig rs kat st'

/-- `add_podrobni_pogoji` (knowledge_base.py lines 251-278), with fuel
for the recursive referred-to expansion.  Any fuel at least the number
of catalog codes not yet visited computes the fixpoint (proved below). -/
def add_podrobni_pogoji (ord : List String → List String) (clenMap : ClenMap)
    (orig : List String) : Nat → String → String → DeriveState → DeriveState
  | 0, _, _, st => st
  | fuel + 1, rabaKey, kat, st =>
    let rabaU := pyUpper rabaKey
    if rabaU ∈ st.dodane_namenske_rabe then st
    else
      match dget rabaU clenMap with
      | none => st
      | some cd =>
        let content := format_structured_content cd.content_structured
        let st1 : DeriveState :=
          { zahteve := st.zahteve ++
              [{ kategorija := kat, naslov := mkNaslovNRP rabaU cd,
                 besedilo := content, clen := mkClenLabelNRP cd, id := "" }],
            dodane_namenske_rabe := sadd rabaU st.dodane_namenske_rabe,
            dodani_cleni := sadd cd.parent_clen_key st.dodani_cleni }
        refsGo (add_podrobni_pogoji ord clenMap orig fuel) orig
          (extract_referenced_namenske_rabe ord clenMap content) kat st1

/-- The static keyword → clause table (`KEYWORD_TO_CLEN`), in source
order. -/
def KEYWORD_TO_CLEN : List (String × String) :=
  [ ("gradnj", "52_clen"), ("dozidava", "52_clen"), ("nadzidava", "52_clen"),
    ("rekonstrukcija", "52_clen"), ("odstranitev", "52_clen"),
    ("sprememba namembnosti", "54_clen"), ("vrste objektov", "56_clen"),
    ("nezahtevni objekt", "64_clen"), ("enostavni objekt", "64_clen"),
    ("razpršena gradnja", "102_clen"), ("nelegalna gradnja", "103_clen"),
    ("odmik", "58_clen"), ("odmiki", "58_clen"), ("soglasje soseda", "58_clen"),
    ("regulacijsk", "57_clen"), ("velikost parcele", "66_clen"),
    ("parcela objekta", "66_clen"), ("velikost objektov", "59_clen"),
    ("faktor izrabe", "59_clen"), ("FI", "59_clen"),
    ("faktor zazidanosti", "59_clen"), ("FZ", "59_clen"),
    ("višina objekt", "59_clen"),
    ("oblikovanj", "60_clen"), ("fasad", "60_clen"), ("streh", "60_clen"),
    ("kritina", "60_clen"), ("naklon strehe", "60_clen"),
    ("zelene površine", "61_clen"), ("FZP", "61_clen"), ("igrišče", "61_clen"),
    ("parkirišč", "62_clen"), ("parkirna mesta", "62_clen"), ("garaž", "62_clen"),
    ("število parkirnih mest", "63_clen"), ("komunaln", "67_clen"),
    ("priključek", "69_clen"), ("priključitev", "69_clen"),
    ("vodovod", "73_clen"), ("kanalizacij", "74_clen"), ("greznica", "69_clen"),
    ("čistilna naprava", "74_clen"), ("plinovod", "76_clen"),
    ("elektro", "77_clen"), ("daljnovod", "77_clen"),
    ("javna razsvetljava", "78_clen"), ("telekomunikacijsk", "79_clen"),
    ("komunikacijsk", "79_clen"),
    ("varovalni pas", "70_clen"), ("varstvo narave", "81_clen"),
    ("kulturna dediščina", "82_clen"), ("vplivi na okolje", "83_clen"),
    ("varstvo voda", "85_clen"), ("vodotok", "85_clen"),
    ("priobalnem zemljišču", "85_clen"), ("vodovarstven", "86_clen"),
    ("varovalni gozd", "88_clen"), ("gozd s posebnim namenom", "89_clen"),
    ("hrup", "98_clen"), ("sevanje", "99_clen"), ("osončenj", "100_clen"),
    ("poplavn", "94_clen"), ("erozij", "92_clen"), ("plaz", "92_clen"),
    ("plazljiv", "92_clen"), ("potresn", "93_clen"), ("požar", "95_clen"),
    ("oglaševanj", "65_clen"), ("odpadk", "80_clen"),
    ("mineralne surovine", "90_clen"), ("obrambne potrebe", "96_clen"),
    ("zaklonišč", "96_clen"), ("invalid", "97_clen"),
    ("dostop za invalide", "97_clen"), ("arhitektonske ovire", "97_clen") ]

/-- Case-insensitive substring search on character lists. -/
def hasSub (needle : List Char) : List Char → Bool
  | [] => needle.isEmpty
  | c :: t => needle.isPrefixOf (c :: t) || hasSub needle t

/-- `re.escape(keyword)` compiled with IGNORECASE and searched in the
project text: a case-insensitive literal substring match (ASCII case
folding). -/
def kwSearch (kw text : String) : Bool :=
  hasSub (kw.data.map lowChar) (text.data.map lowChar)

/-- `triggered_optional_cleni`: clause keys whose keyword occurs in the
project text (empty text is falsy and triggers nothing). -/
def triggered_optional_cleni (projectText : String) : List String :=
  if projectText = "" then []
  else KEYWORD_TO_CLEN.foldl
    (fun s kv => if kwSearch kv.1 projectText then sadd kv.2 s else s) []

/-- `normalize_eup` (knowledge_base.py). -/
def normalize_eup (s : String) : String :=
  if s = "" then "" else pyUpper (pyStrip s)

/-- Dict key of general clause `i` (`f"{i}_clen"`). -/
def gClenKey (i : Nat) : String := Nat.repr i ++ "_clen"

/-- Citation label of general clause `i` (`f"{i}. člen"`). -/
def gClenLabel (i : Nat) : String := Nat.repr i ++ ". člen"

/-- `re.search(r"^\s*\(([^)]+)\)", content)`: a leading parenthesized
title after optional whitespace. -/
def parenTitle (content : String) : Option String :=
  match content.data.dropWhile isWS with
  | '(' :: rest =>
    let grp := rest.takeWhile (fun c => c ≠ ')')
    if grp.isEmpty then none
    else if (rest.drop grp.length).head? = some ')' then some ⟨grp⟩ else none
  | _ => none

/-- Title of an emitted general clause. -/
def gNaslov (i : Nat) (content : String) : String :=
  match parenTitle content with
  | some m => gClenLabel i ++ " (" ++ m ++ ")"
  | none => gClenLabel i

/-- One iteration of the `for i in range(52, 104)` loop. -/
def splosniStep (splosni : List (String × String)) (trig : List String)
    (st : DeriveState) (i : Nat) : DeriveState :=
  let clenKey := gClenKey i
  if ¬ (i ≤ 66) ∧ clenKey ∉ trig then st
  else if clenKey ∈ st.dodani_cleni then st
  else
    match dget clenKey splosni with
    | none => st
    | some content =>
      if content = "" then st
      else
        { st with
          zahteve := st.zahteve ++
            [{ kategorija := splosniKat, naslov := gNaslov i content,
               besedilo := content, clen := gClenLabel i, id := "" }],
          dodani_cleni := sadd clenKey st.dodani_cleni }

/-- The general-clause phase: clause numbers 52-103 in ascending order,
52-66 mandatory, the rest keyword-triggered. -/
def splosniPhase (splosni : List (String × String)) (trig : List String)
    (st : DeriveState) : DeriveState :=
  (List.range' 52 52).foldl (splosniStep splosni trig) st

/-- Code-point comparison of two characters. -/
def charLtb (a b : Char) : Bool := decide (a.toNat < b.toNat)

/-- Lexicographic `≤` on character lists: Python's string comparison. -/
def lexLe : List Char → List Char → Bool
  | [], _ => true
  | _ :: _, [] => false
  | a :: as, b :: bs => if a = b then lexLe as bs else charLtb a b

/-- Python `s1 <= s2` on strings (code-point lexicographic). -/
def strLeb (a b : String) : Bool := lexLe a.data b.data

/-- Insert into a `≤`-sorted list. -/
def sortedInsert (x : String) : List String → List String
  | [] => [x]
  | y :: t => if strLeb x y then x :: y :: t else y :: sortedInsert x t

/-- Insertion sort (model of Python `sorted` on distinct strings). -/
def insSort (l : List String) : List String := l.foldr sortedInsert []

/-- `original_rabe_upper`: the normalized input land-use codes as a set
(modelled as a deduplicated list; only membership and the sorted value
set are ever used). -/
def original_rabe_upper (rabaList : List String) : List String :=
  ((rabaList.filter (fun r => pyStrip r ≠ "")).map (fun r => pyUpper (pyStrip r))).dedup

/-- `sorted([r for r in original_rabe_upper if r in clen_data_map])`. -/
def ciste_namenske_rabe (orig : List String) (clenMap : ClenMap) : List String :=
  insSort (orig.filter (fun r => (dget r clenMap).isSome))

/-- One row of the priloga 2 table. -/
structure Priloga2Entry where
  enota_urejanja : String
  posebni_pip : String
  clen : String
deriving DecidableEq, Repr

/-- One iteration of the planning-unit loop: the pair carries the
derive state and `processed_eups`. -/
def eupStep (entries : List Priloga2Entry) (acc : DeriveState × List String)
    (eup : String) : DeriveState × List String :=
  if eup = "" then acc
  else
    let ne := normalize_eup eup
    if ne ∈ acc.2 then acc
    else
      match entries.find? (fun e => normalize_eup e.enota_urejanja = ne) with
      | none => acc
      | some fe =>
        if fe.posebni_pip ≠ "" ∧ pyStrip fe.posebni_pip ≠ "" ∧ pyStrip fe.posebni_pip ≠ "—" then
          ({ acc.1 with
             zahteve := acc.1.zahteve ++
               [{ kategorija := posebniEupKat,
                  naslov := "Posebni PIP za EUP: " ++ fe.enota_urejanja,
                  besedilo := fe.posebni_pip, clen := fe.clen, id := "" }] },
           ne :: acc.2)
        else acc

/-- The planning-unit phase of `build_requirements_from_db`
(lines 310-337): first matching table row per normalized unit code,
emitted when the special-provision field is non-placeholder. -/
def eupPhase (entries : List Priloga2Entry) (eupList : List String)
    (st : DeriveState) : DeriveState :=
  (eupList.foldl (eupStep entries) (st, ([] : List String))).1

/-- One subtype row of a priloga 1 object class. -/
structure P1Subtype where
  name : String
  permissions : List String
deriving DecidableEq, Repr

/-- One object class of the priloga 1 permission matrix. -/
structure P1Obj where
  title : String
  description : String
  subtypes : List P1Subtype
  nrp_conditions : List (String × String)
deriving DecidableEq, Repr

/-- The priloga 1 document (`none` models the falsy/missing dict). -/
structure Priloga1Data where
  land_uses : List String
  objects : List P1Obj
deriving DecidableEq, Repr

/-- Permission text of one matrix cell, plus the referenced special
condition when the cell is neither `●` nor `x`. -/
def p1CellText (pChar : String) : String × Option String :=
  if pChar = "●" then ("Dovoljeno po splošnih določilih.", none)
  else if pChar = "x" then ("Ni dovoljeno.", none)
  else ("Dovoljeno pod posebnim pogojem št. " ++ pChar ++ ".", some pChar)

/-- Lines and referenced conditions contributed by one object class. -/
def p1ObjLines (rabaIndex : Nat) (o : P1Obj) : List String × List String :=
  o.subtypes.foldl (fun acc s =>
    if rabaIndex < s.permissions.length then
      let pChar := s.permissions.getD rabaIndex ""
      let ct := p1CellText pChar
      let desc := if s.name ≠ "" then s.name else o.description
      (acc.1 ++ ["- *" ++ desc ++ "*: " ++ ct.1],
       match ct.2 with
       | some n => if n ∈ acc.2 then acc.2 else acc.2 ++ [n]
       | none => acc.2)
    else acc) (["**" ++ o.title ++ "**"], [])

/-- `build_priloga1_text` (knowledge_base.py lines 171-221). -/
def build_priloga1_text (nr : String) (p1 : Option Priloga1Data) : String :=
  match p1 with
  | none => "Priloga 1 ni na voljo."
  | some d =>
    match d.land_uses.findIdx? (fun u => hasSub (pyUpper nr).data (pyReplace (pyUpper u) (" ") ("")).data) with
    | none => "Namenska raba \x27" ++ nr ++ "\x27 ni najdena v Prilogi 1."
    | some rabaIndex =>
      let allConds : List (String × String) :=
        d.objects.foldl (fun m o => dupdate m o.nrp_conditions) []
      let body := d.objects.foldl (fun acc o =>
        let ol := p1ObjLines rabaIndex o
        (acc.1 ++ ol.1, acc.2 ++ ol.2.filter (fun n => n ∉ acc.2)))
        (["Za namensko rabo \x27" ++ nr ++ "\x27 so dovoljeni naslednji enostavni/nezahtevni objekti:\n"], [])
      let lines :=
        if body.2 ≠ [] then
          body.1 ++ ["\n**Legenda navedenih posebnih pogojev (NRP):**"] ++
            (insSort body.2).map (fun n =>
              "- **Pogoj " ++ n ++ "**: " ++ ((dget n allConds).getD "Opis ni na voljo."))
        else body.1
      pyJoin "\n" lines

/-- The 50-character separator bar (`"=" * 50`). -/
def eqBar50 : String := ⟨List.replicate 50 (Char.ofNat 61)⟩

/-- The not-found sentinel compared against in `build_requirements_from_db`. -/
def p1NotFound (r : String) : String :=
  "Namenska raba \x27" ++ r ++ "\x27 ni najdena v Prilogi 1."

/-- Sequential id assignment after derivation (`f"Z_{i}"`). -/
def assignIds (l : List Zahteva) : List Zahteva :=
  l.enum.map (fun p => { p.2 with id := "Z_" ++ Nat.repr p.1 })

/-- The priloga 1 appendix (knowledge_base.py lines 339-361): one
summary requirement over the matched codes whose permission text is not
the not-found sentinel, when any exist. -/
def priloga1Phase (priloga1 : Option Priloga1Data) (ciste : List String) :
    List Zahteva :=
  if ciste ≠ [] then
    let rabeP1 := ciste.filter (fun r => build_priloga1_text r priloga1 ≠ p1NotFound r)
    if rabeP1 ≠ [] then
      let sections := rabeP1.map (fun raba =>
        "--- Določila za " ++ raba ++ " --- \n" ++ build_priloga1_text raba priloga1)
      [{ kategorija := priloga1Kat,
         naslov := "Preverjanje dopustnosti enostavnih in nezahtevnih objektov za namenske rabe: " ++ pyJoin ", " rabeP1,
         besedilo := "\n\n" ++ eqBar50 ++ pyJoin "\n\n" sections,
         clen := "", id := "" }]
    else []
  else []

/-- The direct land-use phase: `add_podrobni_pogoji` folded over the
sorted matched codes, every top-level call in the direct category. -/
def landUsePhase (ord : List String → List String) (clenMap : ClenMap)
    (orig : List String) (fuel : Nat) (rabas : List String)
    (st : DeriveState) : DeriveState :=
  rabas.foldl
    (fun st raba => add_podrobni_pogoji ord clenMap orig fuel raba podrobniKat st) st

/-- `build_requirements_from_db` with the recursion fuel of the
referred-to expansion exposed; any fuel of at least the catalog size
computes the same result (proved below). -/
def build_requirements_fueled (ord : List String → List String)
    (clenMap : ClenMap) (splosni : List (String × String))
    (priloga2 : List Priloga2Entry) (priloga1 : Option Priloga1Data)
    (fuel : Nat) (eup_list raba_list : List String)
    (project_text : String) : List Zahteva :=
  let orig := original_rabe_upper raba_list
  let trig := triggered_optional_cleni project_text
  let st1 := splosniPhase splosni trig { zahteve := [], dodane_namenske_rabe := [], dodani_cleni := [] }
  let ciste := ciste_namenske_rabe orig clenMap
  let st2 := landUsePhase ord clenMap orig fuel ciste st1
  let st3 := eupPhase priloga2 eup_list st2
  assignIds (st3.zahteve ++ priloga1Phase priloga1 ciste)

/-- `build_requirements_from_db` (knowledge_base.py lines 224-367).
`ord` is the iteration order of the `set(referenced)` in
`extract_referenced_namenske_rabe` (see there); the land-use recursion
runs with fuel equal to the catalog size, which always suffices. -/
def build_requirements_from_db (ord : List String → List String)
    (clenMap : ClenMap) (splosni : List (String × String))
    (priloga2 : List Priloga2Entry) (priloga1 : Option Priloga1Data)
    (eup_list raba_list : List String) (project_text : String) : List Zahteva :=
  build_requirements_fueled ord clenMap splosni priloga2 priloga1
    clenMap.length eup_list raba_list project_text

/-! ### Statement-support definitions -/

/-- `p.data <+: s.data` as a Bool: does `s` start with `p`. -/
def strStarts (p s : String) : Bool := p.data.isPrefixOf s.data

/-- Is `z` a land-use requirement emitted for code `c`: its category is
the direct land-use category or a `- Napotilo` extension of it, and its
title is the one `add_podrobni_pogoji` builds for `c` from the catalog. -/
def isLandUseEntryFor (clenMap : ClenMap) (c : String) (z : Zahteva) : Bool :=
  strStarts podrobniKat z.kategorija &&
    (match dget c clenMap with
     | some cd => decide (z.naslov = mkNaslovNRP c cd)
     | none => false)

/-- Number of land-use requirements emitted for code `c`. -/
def countLandUseFor (clenMap : ClenMap) (c : String) (l : List Zahteva) : Nat :=
  l.countP (isLandUseEntryFor clenMap c)

/-- The land-use titles built by the catalog are injective in the code:
two catalog codes with the same emitted title coincide.  (Holds for any
real catalog; needed because an emitted requirement records its land-use
code only inside its title string.) -/
def NInjOn (clenMap : ClenMap) : Prop :=
  ∀ c₁ cd₁ c₂ cd₂, dget c₁ clenMap = some cd₁ → dget c₂ clenMap = some cd₂ →
    mkNaslovNRP c₁ cd₁ = mkNaslovNRP c₂ cd₂ → c₁ = c₂

/-- Is `z` the general-clause requirement of clause number `i`. -/
def isGeneralEntryFor (i : Nat) (z : Zahteva) : Bool :=
  decide (z.kategorija = splosniKat) && decide (z.clen = gClenLabel i)

/-- Whether the general loop emits clause number `i` (mandatory or
keyword-triggered, with non-empty catalog content). -/
def gKeep (splosni : List (String × String)) (trig : List String) (i : Nat) : Bool :=
  (decide (i ≤ 66) || decide (gClenKey i ∈ trig)) &&
    (match dget (gClenKey i) splosni with
     | none => false
     | some content => decide (content ≠ ""))

/-- The requirement the general loop emits for clause `i` (when `gKeep`). -/
def gEntry (splosni : List (String × String)) (i : Nat) : Zahteva :=
  { kategorija := splosniKat,
    naslov := gNaslov i ((dget (gClenKey i) splosni).getD ""),
    besedilo := (dget (gClenKey i) splosni).getD "",
    clen := gClenLabel i, id := "" }

/-- Field-extensional equality of two entries (Python `dict.__eq__` on
string-field dicts). -/
def fieldEq (e₁ e₂ : Entry) : Prop := ∀ f, dget f e₁ = dget f e₂

/-- Python `==` on optional entries. -/
def optFieldEq : Option Entry → Option Entry → Prop
  | none, none => True
  | some e₁, some e₂ => fieldEq e₁ e₂
  | _, _ => False

/-- All keys of a result map are strings. -/
def StrKeys (l : PDict) : Prop := ∀ kv ∈ l, ∃ s, kv.1 = PKey.strK s

/-- The keys of an association list are duplicate-free (true of every
list that embeds a Python dict). -/
def KeysNodup (l : List (PKey × Entry)) : Prop := (l.map Prod.fst).Nodup

/-- Every entry value of a result map has duplicate-free field keys. -/
def EntriesWF (l : List (PKey × Entry)) : Prop :=
  ∀ kv ∈ l, ((kv.2).map Prod.fst).Nodup

/-- One emission of the land-use traversal: the code, its catalog data
and the category it was emitted under (proof bookkeeping). -/
structure EmitRec where
  code : String
  cd : ClenData
  kat : String

/-- The requirement an emission appends. -/
def emitOf (e : EmitRec) : Zahteva :=
  { kategorija := e.kat, naslov := mkNaslovNRP e.code e.cd,
    besedilo := format_structured_content e.cd.content_structured,
    clen := mkClenLabelNRP e.cd, id := "" }

/-- Catalog codes not yet visited: the fuel actually needed by
`add_podrobni_pogoji` from a given state. -/
def fuelBound (clenMap : ClenMap) (visited : List String) : Nat :=
  ((clenMap.map Prod.fst).toFinset \ visited.toFinset).card

/-! ### Traversal specification bundles (proof support) -/

/-- What one call of `add_podrobni_pogoji` does: it appends the
requirements of a list `ps` of emissions, adds exactly their codes to
the visited set, every emitted code is fresh, catalog-backed and
emitted once, and every emission is either the call's own code in the
call's category or a referred-to code outside the original input set in
a strictly extended category. -/
def AddSpec (clenMap : ClenMap) (orig : List String) (raba kat : String)
    (st st' : DeriveState) : Prop :=
  ∃ ps : List EmitRec,
    st'.zahteve = st.zahteve ++ ps.map emitOf ∧
    (∀ x, x ∈ st'.dodane_namenske_rabe ↔
      x ∈ st.dodane_namenske_rabe ∨ x ∈ ps.map EmitRec.code) ∧
    (ps.map EmitRec.code).Nodup ∧
    (∀ e ∈ ps, dget e.code clenMap = some e.cd ∧
      e.code ∉ st.dodane_namenske_rabe) ∧
    (∀ e ∈ ps, (e.code = pyUpper raba ∧ e.kat = kat) ∨
      (e.code ∉ orig ∧ ∃ sfx, sfx ≠ "" ∧ e.kat = kat ++ sfx))

/-- What the reference loop does: as `AddSpec`, but every emission is a
referred-to code outside the original input set. -/
def RefsSpec (clenMap : ClenMap) (orig : List String) (kat : String)
    (st st' : DeriveState) : Prop :=
  ∃ ps : List EmitRec,
    st'.zahteve = st.zahteve ++ ps.map emitOf ∧
    (∀ x, x ∈ st'.dodane_namenske_rabe ↔
      x ∈ st.dodane_namenske_rabe ∨ x ∈ ps.map EmitRec.code) ∧
    (ps.map EmitRec.code).Nodup ∧
    (∀ e ∈ ps, dget e.code clenMap = some e.cd ∧
      e.code ∉ st.dodane_namenske_rabe) ∧
    (∀ e ∈ ps, e.code ∉ orig ∧ ∃ sfx, sfx ≠ "" ∧ e.kat = kat ++ sfx)

/-- What the whole land-use phase leaves behind. -/
def PhaseSpec (clenMap : ClenMap) (orig : List String)
    (st st' : DeriveState) : Prop :=
  ∃ ps : List EmitRec,
    st'.zahteve = st.zahteve ++ ps.map emitOf ∧
    (∀ x, x ∈ st'.dodane_namenske_rabe ↔
      x ∈ st.dodane_namenske_rabe ∨ x ∈ ps.map EmitRec.code) ∧
    (ps.map EmitRec.code).Nodup ∧
    (∀ e ∈ ps, dget e.code clenMap = some e.cd ∧
      e.code ∉ st.dodane_namenske_rabe) ∧
    (∀ e ∈ ps, ∃ sfx, e.kat = podrobniKat ++ sfx ∧ (sfx = "" ∨ e.code ∉ orig))

/-- The requirement list the general-clause loop appends. -/
def gPhaseList (splosni : List (String × String)) (trig : List String) :
    List Zahteva :=
  (List.range' 52 52).filterMap
    (fun i => if gKeep splosni trig i then some (gEntry splosni i) else none)

/-! ### Witness data and proof-support definitions -/

/-- Cyclic two-code catalog of the C2/C10 witnesses: the text of `A`
references `B` and the text of `B` references `A`. -/
def cdA2 : ClenData :=
  { title := "T", podrocje_naziv := "Obm A",
    content_structured := .cons "opis" (.s "kot pri B x") .nil,
    parent_clen_key := "10_clen" }

/-- Catalog data of code `B` in the cyclic witness catalog. -/
def cdB2 : ClenData :=
  { title := "T", podrocje_naziv := "Obm B",
    content_structured := .cons "opis" (.s "kot pri A x") .nil,
    parent_clen_key := "11_clen" }

/-- The cyclic witness catalog. -/
def catCyc : ClenMap := [("A", cdA2), ("B", cdB2)]

/-- Catalog data of `AA` in the C9 catalog: its text references both
`BB` and `CC`. -/
def c9cdA : ClenData :=
  { title := "T", podrocje_naziv := "Obmocja A",
    content_structured := .cons "opis" (.s "kot pri BB in kot pri CC") .nil,
    parent_clen_key := "20_clen" }

/-- Catalog data of `BB` in the C9 catalog: its text references `CC`. -/
def c9cdB : ClenData :=
  { title := "T", podrocje_naziv := "Obmocja B",
    content_structured := .cons "opis" (.s "kot pri CC velja") .nil,
    parent_clen_key := "21_clen" }

/-- Catalog data of `CC` in the C9 catalog: no references. -/
def c9cdC : ClenData :=
  { title := "T", podrocje_naziv := "Obmocja C",
    content_structured := .cons "opis" (.s "brez napotil") .nil,
    parent_clen_key := "22_clen" }

/-- The C9 counterexample catalog. -/
def c9cat : ClenMap := [("AA", c9cdA), ("BB", c9cdB), ("CC", c9cdC)]

/-- The direct land-use requirement for `B` produced by the C10 witness
run (input codes `A` and `B` over the cyclic catalog). -/
def c10z : Zahteva :=
  { kategorija := podrobniKat, naslov := "11. člen - Obm B (B)",
    besedilo := "- Opis: kot pri A x", clen := "11. člen", id := "Z_1" }

/-- The single selected requirement of the C1 counterexample. -/
def c1Zah : Zahteva :=
  { kategorija := "k", naslov := "n", besedilo := "b", clen := "c", id := "Z_0" }

/-- The pre-existing canonical map of the C4 witness. -/
def c4Existing : PDict :=
  [(.strK "Z_1", [("skladnost", "Skladno"), ("evidence", "E1")])]

/-- The partial update of the C4 witness: only the compliance status. -/
def c4Update : List (PKey × Entry) :=
  [(.strK "Z_1", [("skladnost", "Neskladno")])]

/-- A two-entry update map for the C4 witness: a new id alongside a
partial update of the existing one. -/
def c4Update2 : List (PKey × Entry) :=
  [(.strK "Z_2", [("skladnost", "Pogojno")]),
   (.strK "Z_1", [("skladnost", "Neskladno")])]

/-- The first update map of the C5 counterexample: a string key. -/
def c5A : List (PKey × Entry) := [(.strK "1", [("a", "x")])]

/-- The second update map of the C5 counterexample: an int key. -/
def c5B : List (PKey × Entry) := [(.intK 2, [("b", "y")])]

/-- The general-clause catalog of the C3 witness: clause 52 has content
with a parenthesized title, clause 53 is present but empty. -/
def splosniW : List (String × String) :=
  [("52_clen", "(osnova) vsebina"), ("53_clen", "")]

/-- The reconciler loop specialised to string keys: when every key in
sight is a string, target resolution is the identity and each update
shallow-merges into the entry under the same key. -/
def strMergeFold (m : PDict) (u : List (PKey × Entry)) : PDict :=
  u.foldl (fun m kv => dinsert kv.1 (dupdate ((dget kv.1 m).getD []) kv.2) m) m

/-! ## Lemmas: dict primitives -/

theorem dget_dinsert (k k' : κ) (v : α) (d : List (κ × α)) :
    dget k (dinsert k' v d) = if k = k' then some v else dget k d := by
  induction d with
  | nil => simp [dget, dinsert]
  | cons hd t ih =>
    obtain ⟨k0, v0⟩ := hd
    simp only [dinsert]
    by_cases h0 : k' = k0
    · rw [if_pos h0, h0]
      by_cases h1 : k = k0 <;> simp [dget, h1]
    · rw [if_neg h0]
      by_cases h1 : k = k0
      · have h2 : ¬ (k = k') := fun h => h0 (h.symm.trans h1)
        have h3 : ¬ (k0 = k') := fun h => h0 h.symm
        simp [dget, h1, h2, h3]
      · simp [dget, h1, ih]

theorem dget_mem {k : κ} {v : α} {l : List (κ × α)} (h : dget k l = some v) :
    (k, v) ∈ l := by
  induction l with
  | nil => simp [dget] at h
  | cons hd t ih =>
    obtain ⟨k0, v0⟩ := hd
    by_cases h1 : k = k0
    · subst h1
      simp [dget] at h
      simp [h]
    · simp [dget, h1] at h
      exact List.mem_cons_of_mem _ (ih h)

theorem dget_isSome_iff_mem_keys {k : κ} {l : List (κ × α)} :
    (dget k l).isSome ↔ k ∈ l.map Prod.fst := by
  induction l with
  | nil => simp [dget]
  | cons hd t ih =>
    obtain ⟨k0, v0⟩ := hd
    by_cases h1 : k = k0
    · subst h1; simp [dget]
    · simp [dget, h1, ih]

theorem dget_eq_none_iff {k : κ} {l : List (κ × α)} :
    dget k l = none ↔ k ∉ l.map Prod.fst := by
  rw [← dget_isSome_iff_mem_keys, Option.not_isSome_iff_eq_none]

theorem keys_dinsert (k : κ) (v : α) (d : List (κ × α)) :
    (dinsert k v d).map Prod.fst =
      if k ∈ d.map Prod.fst then d.map Prod.fst else d.map Prod.fst ++ [k] := by
  induction d with
  | nil => simp [dinsert]
  | cons hd t ih =>
    obtain ⟨k0, v0⟩ := hd
    by_cases h0 : k = k0
    · subst h0; simp [dinsert]
    · by_cases hm : k ∈ t.map Prod.fst
      · simp [dinsert, h0, ih, hm, List.mem_cons]
      · simp [dinsert, h0, ih, hm, List.mem_cons]

theorem keysNodup_dinsert {k : κ} {v : α} {d : List (κ × α)}
    (h : (d.map Prod.fst).Nodup) : ((dinsert k v d).map Prod.fst).Nodup := by
  rw [keys_dinsert]
  split
  · exact h
  · next hn =>
    exact ((List.perm_append_singleton _ _).nodup_iff).2 (List.nodup_cons.2 ⟨hn, h⟩)

theorem dget_dupdate_none {f : κ} {b : List (κ × α)} (a : List (κ × α))
    (h : dget f b = none) : dget f (dupdate a b) = dget f a := by
  induction b generalizing a with
  | nil => simp [dupdate]
  | cons hd t ih =>
    obtain ⟨k0, v0⟩ := hd
    by_cases h1 : f = k0
    · subst h1; simp [dget] at h
    · simp [dget, h1] at h
      show dget f (dupdate (dinsert k0 v0 a) t) = dget f a
      rw [ih _ h, dget_dinsert, if_neg h1]

theorem dget_dupdate_nodup {f : κ} {b : List (κ × α)} (a : List (κ × α))
    (h : (b.map Prod.fst).Nodup) :
    dget f (dupdate a b) =
      (match dget f b with
       | some v => some v
       | none => dget f a) := by
  induction b generalizing a with
  | nil => simp [dupdate, dget]
  | cons hd t ih =>
    obtain ⟨k0, v0⟩ := hd
    simp only [List.map_cons, List.nodup_cons] at h
    by_cases h1 : f = k0
    · subst h1
      show dget f (dupdate (dinsert f v0 a) t) =
        (match dget f ((f, v0) :: t) with | some v => some v | none => dget f a)
      have ht : dget f t = none := dget_eq_none_iff.2 h.1
      rw [dget_dupdate_none _ ht, dget_dinsert, if_pos rfl]
      simp [dget]
    · show dget f (dupdate (dinsert k0 v0 a) t) = _
      rw [ih _ h.2, dget_dinsert, if_neg h1]
      simp [dget, h1]

theorem dget_dupdate_isSome {f : κ} {a : List (κ × α)} (b : List (κ × α))
    (h : (dget f a).isSome) : (dget f (dupdate a b)).isSome := by
  induction b generalizing a with
  | nil => simpa [dupdate]
  | cons hd t ih =>
    show (dget f (dupdate (dinsert hd.1 hd.2 a) t)).isSome
    apply ih
    rw [dget_dinsert]
    split
    · rfl
    · exact h

theorem keysNodup_dupdate {a b : List (κ × α)}
    (h : (a.map Prod.fst).Nodup) : ((dupdate a b).map Prod.fst).Nodup := by
  induction b generalizing a with
  | nil => simpa [dupdate]
  | cons hd t ih =>
    show (((dupdate (dinsert hd.1 hd.2 a) t)).map Prod.fst).Nodup
    exact ih (keysNodup_dinsert h)

theorem dget_append (k : κ) (a b : List (κ × α)) :
    dget k (a ++ b) =
      (match dget k a with
       | some v => some v
       | none => dget k b) := by
  induction a with
  | nil => simp [dget]
  | cons hd t ih =>
    obtain ⟨k0, v0⟩ := hd
    by_cases h1 : k = k0
    · subst h1; simp [dget]
    · simp [dget, h1, ih]

theorem mem_sadd [DecidableEq α] (x y : α) (s : List α) :
    y ∈ sadd x s ↔ y = x ∨ y ∈ s := by
  unfold sadd
  by_cases h : x ∈ s
  · rw [if_pos h]
    constructor
    · exact Or.inr
    · rintro (rfl | hy)
      · exact h
      · exact hy
  · rw [if_neg h]
    simp [List.mem_cons]

/-! ## C7: polling an unknown session -/

/-- C7 counterexample: with no cached snapshot, `get_progress` returns a
fabricated default snapshot, not a 404. -/
theorem C7_counterexample :
    get_progress none = PollReply.payload defaultProgressReply ∧
      get_progress none ≠ PollReply.http404 := by
  exact ⟨rfl, by decide⟩

/-- C7 (amended): for a session with no progress snapshot the two result
endpoints report 404, while `/progress/{session_id}` returns the default
initialization snapshot instead of a 404. -/
theorem C7_amended : ∀ r : Option Entry,
    get_extract_data_result none r = StatusReply.http404 ∧
      get_analyze_report_result none r = StatusReply.http404 ∧
      get_progress none = PollReply.payload defaultProgressReply := by
  intro r
  exact ⟨rfl, rfl, rfl⟩

/-! ## C6: progress monotonicity -/

/-- C6 counterexample: a run that fails after the second snapshot writes
the terminal error snapshot with step 0 and percentage 0, so the written
sequence is monotone in neither step nor percentage. -/
theorem C6_counterexample :
    ¬ stepMono (analyzeFailTrace 2 ("boom")) ∧
      ¬ pctMono (analyzeFailTrace 2 ("boom")) := by
  constructor <;> decide

/-- C6 (amended): on the success path the snapshots of one analysis run
have non-decreasing step and percentage; the terminal snapshot of a
failed run however resets step and percentage to 0, which breaks
monotonicity whenever the failure occurs after at least two writes. -/
theorem C6_amended :
    stepMono analyzeSuccessTrace ∧ pctMono analyzeSuccessTrace ∧
      (∀ msg, (analyzeErrorSnapshot msg).step = 0 ∧
        (analyzeErrorSnapshot msg).percentage = 0) ∧
      (∀ msg k, 2 ≤ k → k ≤ 6 → ¬ stepMono (analyzeFailTrace k msg)) := by
  refine ⟨by decide, by decide, fun msg => ⟨rfl, rfl⟩, ?_⟩
  intro msg k h1 h2
  interval_cases k <;> exact fun h => Bool.noConfusion h

/-- C6 witness: the amended theorem applied to a concrete failing run. -/
theorem C6_amended_witness :
    ¬ stepMono (analyzeFailTrace 3 ("napaka")) :=
  C6_amended.2.2.2 "napaka" 3 (by norm_num) (by norm_num)

/-! ## C1: orchestration completeness -/

theorem chunkAux_flatten (s : Nat) :
    ∀ (f : Nat) (l : List α), l.length ≤ f → (chunkAux (s + 1) f l).flatten = l := by
  intro f
  induction f with
  | zero =>
    intro l hl
    cases l with
    | nil => simp [chunkAux]
    | cons x xs => simp at hl
  | succ f ih =>
    intro l hl
    cases l with
    | nil => simp [chunkAux]
    | cons x xs =>
      have hd : ((x :: xs).drop (s + 1)).length ≤ f := by
        simp only [List.length_drop]
        simp only [List.length_cons] at hl ⊢
        omega
      simp only [chunkAux, List.flatten_cons, ih _ hd]
      exact List.take_append_drop _ _

theorem chunk_list_flatten (s : Nat) (l : List α) :
    (chunk_list (s + 1) l).flatten = l :=
  chunkAux_flatten s l.length l le_rfl

theorem parse_fold_isSome_pres (expected : List Zahteva)
    (m : List (String × Entry)) (k : String) (h : (dget k m).isSome) :
    (dget k (expected.foldl (fun m z =>
      if (dget z.id m).isSome then m
      else dinsert z.id (placeholderEntry z.id) m) m)).isSome := by
  induction expected generalizing m with
  | nil => simpa
  | cons z t ih =>
    simp only [List.foldl_cons]
    apply ih
    split
    · exact h
    · rw [dget_dinsert]
      split
      · rfl
      · exact h

theorem parse_ai_response_isSome (items : List Entry) (expected : List Zahteva)
    (z : Zahteva) (hz : z ∈ expected) :
    (dget z.id (parse_ai_response items expected)).isSome := by
  unfold parse_ai_response
  generalize (items.foldl _ _ : List (String × Entry)) = rm
  revert hz
  induction expected generalizing rm with
  | nil => intro hz; cases hz
  | cons h t ih =>
    intro hz
    rcases List.mem_cons.1 hz with rfl | hz'
    · simp only [List.foldl_cons]
      apply parse_fold_isSome_pres
      split
      · next hs => exact hs
      · rw [dget_dinsert, if_pos rfl]; rfl
    · simp only [List.foldl_cons]
      exact ih _ hz'

theorem parse_items_fold_none (z : Zahteva) (items : List Entry)
    (hnone : ∀ it ∈ items, ∀ v, dget ("id") it = some v → v ≠ z.id) :
    ∀ m, dget z.id m = none →
      dget z.id (items.foldl (fun m item =>
        match dget ("id") item with
        | some idv => if idv = "" then m else dinsert idv item m
        | none => m) m) = none := by
  induction items with
  | nil => intro m hm; simpa
  | cons it t ih =>
    intro m hm
    simp only [List.foldl_cons]
    have hnone' : ∀ it ∈ t, ∀ v, dget ("id") it = some v → v ≠ z.id :=
      fun it h => hnone it (List.mem_cons_of_mem _ h)
    apply ih hnone'
    cases hv : dget ("id") it with
    | none => simpa
    | some v =>
      simp only
      split
      · exact hm
      · rw [dget_dinsert, if_neg, hm]
        exact fun h => hnone it (List.mem_cons_self _ _) v hv h.symm

theorem parse_expected_fold_pres (z : Zahteva) (expected : List Zahteva) :
    ∀ m, dget z.id m = some (placeholderEntry z.id) →
      dget z.id (expected.foldl (fun m z' =>
        if (dget z'.id m).isSome then m
        else dinsert z'.id (placeholderEntry z'.id) m) m) =
        some (placeholderEntry z.id) := by
  induction expected with
  | nil => intro m hm; simpa
  | cons h t ih =>
    intro m hm
    simp only [List.foldl_cons]
    apply ih
    split
    · exact hm
    · next hs =>
      rw [dget_dinsert, if_neg, hm]
      intro he
      rw [← he, hm] at hs
      simp at hs

theorem parse_ai_response_placeholder (items : List Entry)
    (expected : List Zahteva) (z : Zahteva) (hz : z ∈ expected)
    (hnone : ∀ it ∈ items, ∀ v, dget ("id") it = some v → v ≠ z.id) :
    dget z.id (parse_ai_response items expected) = some (placeholderEntry z.id) := by
  unfold parse_ai_response
  have hrm := parse_items_fold_none z items hnone [] (by simp [dget])
  generalize hg : (items.foldl _ _ : List (String × Entry)) = rm at hrm ⊢
  clear hg hnone
  revert hz hrm
  induction expected generalizing rm with
  | nil => intro hz _; cases hz
  | cons h t ih =>
    intro hz hrm
    simp only [List.foldl_cons]
    by_cases hid : h.id = z.id
    · apply parse_expected_fold_pres
      rw [if_neg (by simp [hid, hrm])]
      rw [dget_dinsert, if_pos hid.symm, hid]
    · have hz' : z ∈ t := by
        rcases List.mem_cons.1 hz with rfl | hz'
        · exact absurd rfl hid
        · exact hz'
      apply ih _ hz'
      split
      · exact hrm
      · rw [dget_dinsert, if_neg (fun h' => hid h'.symm), hrm]

theorem combine_isSome_pres (pairs : List (AIOutcome × List Zahteva))
    (m : List (String × Entry)) (k : String) (h : (dget k m).isSome) :
    (dget k (combineChunkResults m pairs)).isSome := by
  induction pairs generalizing m with
  | nil => simpa [combineChunkResults]
  | cons p t ih =>
    unfold combineChunkResults
    simp only [List.foldl_cons]
    show (dget k (combineChunkResults _ t)).isSome
    cases p.1 with
    | ok items => exact ih _ (dget_dupdate_isSome _ h)
    | exn => exact ih _ h
    | unparseable => exact ih _ h

theorem dget_dupdate_of_b_isSome {k : κ} {b : List (κ × α)} (a : List (κ × α))
    (h : (dget k b).isSome) : (dget k (dupdate a b)).isSome := by
  induction b generalizing a with
  | nil => simp [dget] at h
  | cons hd t ih =>
    obtain ⟨k0, v0⟩ := hd
    show (dget k (dupdate (dinsert k0 v0 a) t)).isSome
    by_cases h1 : k = k0
    · subst h1
      apply dget_dupdate_isSome
      rw [dget_dinsert, if_pos rfl]
      rfl
    · simp only [dget, h1, if_false] at h
      exact ih _ h

theorem combine_complete (pairs : List (AIOutcome × List Zahteva))
    (m : List (String × Entry)) (z : Zahteva) (items : List Entry)
    (ch : List Zahteva) (hp : (AIOutcome.ok items, ch) ∈ pairs) (hz : z ∈ ch) :
    (dget z.id (combineChunkResults m pairs)).isSome := by
  induction pairs generalizing m with
  | nil => cases hp
  | cons p t ih =>
    unfold combineChunkResults
    simp only [List.foldl_cons]
    show (dget z.id (combineChunkResults _ t)).isSome
    rcases List.mem_cons.1 hp with rfl | hp'
    · simp only
      apply combine_isSome_pres
      exact dget_dupdate_of_b_isSome _ (parse_ai_response_isSome items ch z hz)
    · cases p.1 <;> exact ih _ hp'

theorem combine_keysNodup (pairs : List (AIOutcome × List Zahteva))
    (m : List (String × Entry)) (h : (m.map Prod.fst).Nodup) :
    ((combineChunkResults m pairs).map Prod.fst).Nodup := by
  induction pairs generalizing m with
  | nil => simpa [combineChunkResults]
  | cons p t ih =>
    unfold combineChunkResults
    simp only [List.foldl_cons]
    show ((combineChunkResults _ t).map Prod.fst).Nodup
    cases p.1 with
    | ok items => exact ih _ (keysNodup_dupdate h)
    | exn => exact ih _ h
    | unparseable => exact ih _ h

/-- C1 (amended): when every batch call succeeds and parses, the final
result map of a run holds an entry for every selected requirement id
(at most one entry per id since the map keys stay duplicate-free), and
`parse_ai_response` synthesizes the `Neznano` placeholder for every
expected id the service omitted.  (When a batch fails, the fan-in loop
skips it without synthesizing placeholders: its ids are simply absent
unless the pre-existing map already held them — see the
counterexample.) -/
theorem C1_amended (size : Nat) (existing : List (String × Entry))
    (selected : List Zahteva) (responses : List AIOutcome)
    (hlen : responses.length = (chunk_list (size + 1) selected).length)
    (hok : ∀ r ∈ responses, ∃ items, r = AIOutcome.ok items)
    (hwf : (existing.map Prod.fst).Nodup) :
    (∀ z ∈ selected,
      (dget z.id (analyzeResultsMap (size + 1) existing selected responses)).isSome) ∧
    ((analyzeResultsMap (size + 1) existing selected responses).map Prod.fst).Nodup ∧
    (∀ items expected z, z ∈ expected →
      (∀ it ∈ items, ∀ v, dget ("id") it = some v → v ≠ z.id) →
      dget z.id (parse_ai_response items expected) = some (placeholderEntry z.id)) := by
  refine ⟨?_, combine_keysNodup _ _ hwf, fun items expected z hz hn =>
    parse_ai_response_placeholder items expected z hz hn⟩
  intro z hz
  have hzf : z ∈ (chunk_list (size + 1) selected).flatten := by
    rw [chunk_list_flatten]; exact hz
  rcases List.mem_flatten.1 hzf with ⟨ch, hch, hzch⟩
  rcases List.mem_iff_getElem.1 hch with ⟨i, hi, hchi⟩
  have hir : i < responses.length := by rw [hlen]; exact hi
  rcases hok responses[i] (responses.getElem_mem hir) with ⟨items, hitems⟩
  have hpair : (AIOutcome.ok items, ch) ∈ responses.zip (chunk_list (size + 1) selected) := by
    have hiz : i < (responses.zip (chunk_list (size + 1) selected)).length := by
      rw [List.length_zip]; omega
    have : (responses.zip (chunk_list (size + 1) selected))[i] = (AIOutcome.ok items, ch) := by
      rw [List.getElem_zip, hitems, hchi]
    rw [← this]
    exact List.getElem_mem hiz
  exact combine_complete _ existing z items ch hpair hzch

/-- C1 witness: the amended theorem applied to one selected requirement
whose batch succeeds with an empty item list (service answered nothing):
the id still receives an entry. -/
theorem C1_amended_witness :
    (dget c1Zah.id (analyzeResultsMap 20 [] [c1Zah] [AIOutcome.ok []])).isSome := by
  have h := C1_amended 19 [] [c1Zah] [AIOutcome.ok []] (by rfl)
    (by
      intro r hr
      rcases List.mem_singleton.1 hr with rfl
      exact ⟨[], rfl⟩)
    List.nodup_nil
  exact h.1 c1Zah (List.mem_singleton.2 rfl)

/-- C1 counterexample: one selected requirement, its only batch fails;
the run's canonical map is empty, so the selected id has no entry at
all — no `Unknown` placeholder is synthesized for a failed batch. -/
theorem C1_counterexample :
    c1Zah ∈ ([c1Zah] : List Zahteva) ∧
      analyzeResultsMap 20 [] [c1Zah] [AIOutcome.exn] = [] ∧
      dget c1Zah.id (analyzeResultsMap 20 [] [c1Zah] [AIOutcome.exn]) = none :=
  ⟨List.mem_singleton.2 rfl, rfl, rfl⟩

/-! ## C4: reconciler frame properties -/

theorem mem_dinsert {p : κ × α} {k : κ} {v : α} {d : List (κ × α)}
    (h : p ∈ dinsert k v d) : (p.1 = k ∧ p.2 = v) ∨ p ∈ d := by
  induction d with
  | nil =>
    simp [dinsert] at h
    subst h; exact Or.inl ⟨rfl, rfl⟩
  | cons hd t ih =>
    obtain ⟨k0, v0⟩ := hd
    by_cases h0 : k = k0
    · subst h0
      simp only [dinsert, if_pos rfl] at h
      rcases List.mem_cons.1 h with rfl | hm
      · exact Or.inl ⟨rfl, rfl⟩
      · exact Or.inr (List.mem_cons_of_mem _ hm)
    · simp only [dinsert, if_neg h0] at h
      rcases List.mem_cons.1 h with rfl | hm
      · exact Or.inr (List.mem_cons_self _ _)
      · rcases ih hm with h1 | h2
        · exact Or.inl h1
        · exact Or.inr (List.mem_cons_of_mem _ h2)

theorem mergeStep_fst (pref : Option PTy) (st : PDict × List (String × PKey))
    (kv : PKey × Entry) :
    ∃ T v', (mergeStep pref st kv).1 = dinsert T v' st.1 :=
  ⟨_, _, rfl⟩

theorem mergeFold_isSome_pres (pref : Option PTy)
    (updates : List (PKey × Entry)) (st : PDict × List (String × PKey))
    (k : PKey) (h : (dget k st.1).isSome) :
    (dget k (updates.foldl (mergeStep pref) st).1).isSome := by
  induction updates generalizing st with
  | nil => simpa
  | cons u t ih =>
    simp only [List.foldl_cons]
    apply ih
    rcases mergeStep_fst pref st u with ⟨T, v', hT⟩
    rw [hT, dget_dinsert]
    split
    · rfl
    · exact h

theorem buildKeyIndex_fold (k : PKey) (l : List (PKey × Entry)) :
    ∀ idx : List (String × PKey),
      ((∃ e, (k, e) ∈ l) ∨ dget (keyStr k) idx = some k) →
      (∀ k' v', (k', v') ∈ l → keyStr k' = keyStr k → k' = k) →
      dget (keyStr k)
        (l.foldl (fun idx kv => dinsert (keyStr kv.1) kv.1 idx) idx) = some k := by
  induction l with
  | nil =>
    intro idx h _
    rcases h with ⟨e, he⟩ | h
    · cases he
    · simpa
  | cons hd t ih =>
    intro idx h huniq
    obtain ⟨k0, v0⟩ := hd
    simp only [List.foldl_cons]
    have huniq' : ∀ k' v', (k', v') ∈ t → keyStr k' = keyStr k → k' = k :=
      fun k' v' hm hs => huniq k' v' (List.mem_cons_of_mem _ hm) hs
    by_cases h0 : k0 = k
    · subst h0
      refine ih _ (Or.inr ?_) huniq'
      rw [dget_dinsert, if_pos rfl]
    · rcases h with ⟨e, he⟩ | hsome
      · rcases List.mem_cons.1 he with heq | hm
        · exact absurd (congrArg Prod.fst heq).symm h0
        · exact ih _ (Or.inl ⟨e, hm⟩) huniq'
      · refine ih _ (Or.inr ?_) huniq'
        have hne : ¬ (keyStr k = keyStr k0) := by
          intro he
          by_cases hkm : keyStr k0 = keyStr k
          · exact h0 (huniq k0 v0 (List.mem_cons_self _ _) hkm)
          · exact hkm he.symm
        rw [dget_dinsert, if_neg hne]
        exact hsome

theorem buildKeyIndex_eq (existing : PDict) (k : PKey) (e : Entry)
    (hmem : (k, e) ∈ existing)
    (huniq : ∀ k' v', (k', v') ∈ existing → keyStr k' = keyStr k → k' = k) :
    dget (keyStr k) (buildKeyIndex existing) = some k :=
  buildKeyIndex_fold k existing [] (Or.inl ⟨e, hmem⟩) huniq

theorem mergeResults_single (existing : PDict) (raw k : PKey) (v e : Entry)
    (hk : dget k existing = some e) (hs : keyStr k = keyStr raw)
    (huniq : ∀ k' v', (k', v') ∈ existing → keyStr k' = keyStr raw → k' = k) :
    mergeResults existing [(raw, v)] = dinsert k (dupdate e v) existing := by
  have huniq' : ∀ k' v', (k', v') ∈ existing → keyStr k' = keyStr k → k' = k :=
    fun k' v' hm hss => huniq k' v' hm (hs ▸ hss)
  have hhit : dget (keyStr raw) (buildKeyIndex existing) = some k := by
    rw [← hs]
    exact buildKeyIndex_eq existing k e (dget_mem hk) huniq'
  show (mergeStep _ (existing, buildKeyIndex existing) (raw, v)).1 = _
  unfold mergeStep
  simp [hhit, hk]

/-! ## C5: reconciliation of two passes versus one combined pass -/

theorem optFieldEq_refl (x : Option Entry) : optFieldEq x x := by
  cases x with
  | none => trivial
  | some e => exact fun f => rfl

theorem strKeys_dget_intK {l : PDict} (h : StrKeys l) (n : Int) :
    dget (PKey.intK n) l = none := by
  cases hg : dget (PKey.intK n) l with
  | none => rfl
  | some v =>
    rcases h _ (dget_mem hg) with ⟨s, hs⟩
    cases hs

theorem buildKeyIndex_vals {existing : PDict} (h : StrKeys existing) :
    ∀ p ∈ buildKeyIndex existing, p.2 = PKey.strK p.1 := by
  unfold buildKeyIndex
  suffices hgen : ∀ l : PDict, (∀ kv ∈ l, ∃ s, kv.1 = PKey.strK s) →
      ∀ idx : List (String × PKey), (∀ p ∈ idx, p.2 = PKey.strK p.1) →
      ∀ p ∈ l.foldl (fun idx kv => dinsert (keyStr kv.1) kv.1 idx) idx,
        p.2 = PKey.strK p.1 by
    exact hgen existing h [] (by intro p hp; cases hp)
  intro l
  induction l with
  | nil => intro _ idx hidx p hp; exact hidx p hp
  | cons hd t ih =>
    intro hl idx hidx
    simp only [List.foldl_cons]
    refine ih (fun kv hm => hl kv (List.mem_cons_of_mem _ hm)) _ ?_
    intro p hp
    rcases mem_dinsert hp with ⟨h1, h2⟩ | hold
    · rcases hl hd (List.mem_cons_self _ _) with ⟨s, hs⟩
      rw [h1, h2, hs]
      rfl
    · exact hidx p hold

theorem preferredType_not_int {existing : PDict} (h : StrKeys existing) :
    preferredType (buildKeyIndex existing) ≠ some PTy.intT := by
  cases hidx : buildKeyIndex existing with
  | nil => simp [preferredType]
  | cons p t =>
    have hp := buildKeyIndex_vals h p (by rw [hidx]; exact List.mem_cons_self _ _)
    obtain ⟨s, k⟩ := p
    simp only at hp
    subst hp
    simp [preferredType, tyOf]

theorem mergeStep_strK {pref : Option PTy} (hpref : pref ≠ some PTy.intT)
    (st : PDict × List (String × PKey))
    (hidx : ∀ p ∈ st.2, p.2 = PKey.strK p.1) (s : String) (v : Entry) :
    mergeStep pref st (PKey.strK s, v) =
      (dinsert (PKey.strK s) (dupdate ((dget (PKey.strK s) st.1).getD []) v) st.1,
       dinsert s (PKey.strK s) st.2) := by
  unfold mergeStep
  cases hhit : dget s st.2 with
  | some k =>
    have hk : k = PKey.strK s := by
      have := hidx _ (dget_mem hhit)
      simpa [keyStr] using this
    subst hk
    simp [hhit, keyStr]
  | none =>
    cases pref with
    | none => simp [hhit, keyStr, tyOf]
    | some t =>
      cases t with
      | intT => exact absurd rfl hpref
      | strT => simp [hhit, keyStr, tyOf]

theorem mergeResults_strKeys (existing : PDict) (u : List (PKey × Entry))
    (hex : StrKeys existing) (hu : StrKeys u) :
    mergeResults existing u = strMergeFold existing u := by
  unfold mergeResults strMergeFold
  have hpref := preferredType_not_int hex
  suffices hgen : ∀ (l : List (PKey × Entry)), (∀ kv ∈ l, ∃ s, kv.1 = PKey.strK s) →
      ∀ (st : PDict × List (String × PKey)), (∀ p ∈ st.2, p.2 = PKey.strK p.1) →
      (l.foldl (mergeStep (preferredType (buildKeyIndex existing))) st).1 =
        l.foldl (fun m kv => dinsert kv.1 (dupdate ((dget kv.1 m).getD []) kv.2) m) st.1 by
    exact hgen u hu (existing, buildKeyIndex existing) (buildKeyIndex_vals hex)
  intro l
  induction l with
  | nil => intro _ st _; rfl
  | cons kv t ih =>
    intro hl st hstdx
    obtain ⟨k0, v0⟩ := kv
    rcases hl _ (List.mem_cons_self _ _) with ⟨s, hs⟩
    subst hs
    simp only [List.foldl_cons]
    rw [mergeStep_strK hpref st hstdx s v0]
    refine ih (fun kv hm => hl kv (List.mem_cons_of_mem _ hm)) _ ?_
    intro p hp
    rcases mem_dinsert hp with ⟨h1, h2⟩ | hold
    · rw [h1, h2]
    · exact hstdx p hold

theorem strMergeFold_strKeys {m : PDict} {u : List (PKey × Entry)}
    (hm : StrKeys m) (hu : StrKeys u) : StrKeys (strMergeFold m u) := by
  unfold strMergeFold
  induction u generalizing m with
  | nil => simpa
  | cons kv t ih =>
    simp only [List.foldl_cons]
    refine ih ?_ (fun p hp => hu p (List.mem_cons_of_mem _ hp))
    intro p hp
    rcases mem_dinsert hp with ⟨h1, _⟩ | hold
    · rcases hu kv (List.mem_cons_self _ _) with ⟨s, hs⟩
      exact ⟨s, h1.trans hs⟩
    · exact hm p hold

theorem strMergeFold_lookup_notmem (u : List (PKey × Entry)) (m : PDict)
    (k : PKey) (hk : k ∉ u.map Prod.fst) :
    dget k (strMergeFold m u) = dget k m := by
  induction u generalizing m with
  | nil => rfl
  | cons kv t ih =>
    simp only [List.map_cons, List.mem_cons] at hk
    push_neg at hk
    have hfold : strMergeFold m (kv :: t) =
        strMergeFold (dinsert kv.1 (dupdate ((dget kv.1 m).getD []) kv.2) m) t := rfl
    rw [hfold, ih _ hk.2, dget_dinsert, if_neg hk.1]

theorem strMergeFold_lookup (u : List (PKey × Entry)) (m : PDict)
    (hnodup : KeysNodup u) (k : PKey) :
    dget k (strMergeFold m u) =
      (match dget k u with
       | some v => some (dupdate ((dget k m).getD []) v)
       | none => dget k m) := by
  induction u generalizing m with
  | nil => rfl
  | cons kv t ih =>
    obtain ⟨k0, v0⟩ := kv
    unfold KeysNodup at hnodup
    simp only [List.map_cons, List.nodup_cons] at hnodup
    have hfold : strMergeFold m ((k0, v0) :: t) =
        strMergeFold (dinsert k0 (dupdate ((dget k0 m).getD []) v0) m) t := rfl
    by_cases h1 : k = k0
    · subst h1
      rw [hfold, strMergeFold_lookup_notmem _ _ _ hnodup.1, dget_dinsert, if_pos rfl]
      simp [dget]
    · rw [hfold, ih _ hnodup.2]
      have : dget k (dinsert k0 (dupdate ((dget k0 m).getD []) v0) m) = dget k m := by
        rw [dget_dinsert, if_neg h1]
      rw [this]
      simp [dget, h1]

theorem combineUpdates_lookup (b a : List (PKey × Entry))
    (ha : KeysNodup a) (hb : KeysNodup b) (k : PKey) :
    dget k (combineUpdates a b) =
      (match dget k a, dget k b with
       | some x, some y => some (dupdate x y)
       | some x, none => some x
       | none, some y => some y
       | none, none => none) := by
  induction b generalizing a with
  | nil =>
    simp only [combineUpdates, List.foldl_nil]
    cases dget k a <;> simp [dget]
  | cons kv t ih =>
    obtain ⟨k0, v0⟩ := kv
    unfold KeysNodup at hb
    simp only [List.map_cons, List.nodup_cons] at hb
    cases hg : dget k0 a with
    | some e =>
      have hfold : combineUpdates a ((k0, v0) :: t) =
          combineUpdates (dinsert k0 (dupdate e v0) a) t := by
        simp only [combineUpdates, List.foldl_cons, hg]
      rw [hfold, ih _ (keysNodup_dinsert ha) hb.2]
      by_cases h1 : k = k0
      · subst h1
        have hkt : dget k t = none := dget_eq_none_iff.2 hb.1
        have hdi : dget k (dinsert k (dupdate e v0) a) = some (dupdate e v0) := by
          rw [dget_dinsert, if_pos rfl]
        rw [hkt, hg, hdi]
        simp [dget]
      · have hdi : dget k (dinsert k0 (dupdate e v0) a) = dget k a := by
          rw [dget_dinsert, if_neg h1]
        have hbt : dget k ((k0, v0) :: t) = dget k t := by simp [dget, h1]
        rw [hdi, hbt]
    | none =>
      have hfold : combineUpdates a ((k0, v0) :: t) =
          combineUpdates (a ++ [(k0, v0)]) t := by
        simp only [combineUpdates, List.foldl_cons, hg]
      have ha' : KeysNodup (a ++ [(k0, v0)]) := by
        unfold KeysNodup
        rw [List.map_append]
        refine ((List.perm_append_singleton _ _).nodup_iff).2 (List.nodup_cons.2 ⟨?_, ha⟩)
        rw [dget_eq_none_iff] at hg
        simpa using hg
      rw [hfold, ih _ ha' hb.2]
      by_cases h1 : k = k0
      · subst h1
        have hkt : dget k t = none := dget_eq_none_iff.2 hb.1
        have happ : dget k (a ++ [(k, v0)]) = some v0 := by
          rw [dget_append, hg]
          simp [dget]
        rw [hkt, happ, hg]
        simp [dget]
      · have happ : dget k (a ++ [(k0, v0)]) = dget k a := by
          rw [dget_append]
          cases dget k a <;> simp [dget, h1]
        have hbt : dget k ((k0, v0) :: t) = dget k t := by simp [dget, h1]
        rw [happ, hbt]

theorem combineUpdates_strKeys {a b : List (PKey × Entry)}
    (ha : StrKeys a) (hb : StrKeys b) : StrKeys (combineUpdates a b) := by
  induction b generalizing a with
  | nil => simpa [combineUpdates]
  | cons kv t ih =>
    have hfold : combineUpdates a (kv :: t) =
        combineUpdates (match dget kv.1 a with
          | some e => dinsert kv.1 (dupdate e kv.2) a
          | none => a ++ [kv]) t := rfl
    rw [hfold]
    refine ih ?_ (fun p hp => hb p (List.mem_cons_of_mem _ hp))
    cases hg : dget kv.1 a with
    | some e =>
      intro p hp
      rcases mem_dinsert hp with ⟨h1, _⟩ | hold
      · rcases hb kv (List.mem_cons_self _ _) with ⟨s, hs⟩
        exact ⟨s, h1.trans hs⟩
      · exact ha p hold
    | none =>
      intro p hp
      rcases List.mem_append.1 hp with hold | hnew
      · exact ha p hold
      · rcases List.mem_singleton.1 hnew with rfl
        exact hb _ (List.mem_cons_self _ _)

theorem combineUpdates_keysNodup {a b : List (PKey × Entry)}
    (ha : KeysNodup a) : KeysNodup (combineUpdates a b) := by
  induction b generalizing a with
  | nil => simpa [combineUpdates]
  | cons kv t ih =>
    have hfold : combineUpdates a (kv :: t) =
        combineUpdates (match dget kv.1 a with
          | some e => dinsert kv.1 (dupdate e kv.2) a
          | none => a ++ [kv]) t := rfl
    rw [hfold]
    refine ih ?_
    cases hg : dget kv.1 a with
    | some e => exact keysNodup_dinsert ha
    | none =>
      unfold KeysNodup
      rw [List.map_append]
      refine ((List.perm_append_singleton _ _).nodup_iff).2 (List.nodup_cons.2 ⟨?_, ha⟩)
      rw [dget_eq_none_iff] at hg
      simpa using hg

/-- C4: the reconciler of `confirm_report` never drops an id already in
the canonical map (for every incoming update map, of any size and key
representation); and a partial update never erases fields already on
file: for every string-keyed update map (as the real `Z_<n>` ids are),
the merged entry of an existing id is its stored entry with the
matching update's fields folded on top — every field the update does
not set survives — and an id the update map does not mention keeps its
entry verbatim; the same shallow-merge law also holds for a
mixed-representation single-entry update that addresses the id
unambiguously by string form. -/
theorem C4_merge_frame (existing : PDict) (updates : List (PKey × Entry))
    (k : PKey) (e : Entry) (hk : dget k existing = some e) :
    (dget k (mergeResults existing updates)).isSome ∧
    (StrKeys existing → StrKeys updates → KeysNodup updates →
      (∀ v, dget k updates = some v →
        dget k (mergeResults existing updates) = some (dupdate e v) ∧
        ∀ f, dget f v = none → dget f (dupdate e v) = dget f e) ∧
      (dget k updates = none →
        dget k (mergeResults existing updates) = some e)) ∧
    (∀ raw v, updates = [(raw, v)] → keyStr k = keyStr raw →
      (∀ k' v', (k', v') ∈ existing → keyStr k' = keyStr raw → k' = k) →
      dget k (mergeResults existing updates) = some (dupdate e v) ∧
      ∀ f, dget f v = none → dget f (dupdate e v) = dget f e) := by
  refine ⟨?_, ?_, ?_⟩
  · exact mergeFold_isSome_pres _ updates _ k (by rw [hk]; rfl)
  · intro hex hu hnodup
    have hmr := mergeResults_strKeys existing updates hex hu
    have hl := strMergeFold_lookup updates existing hnodup k
    constructor
    · intro v hv
      rw [hv] at hl
      refine ⟨?_, fun f hf => dget_dupdate_none e hf⟩
      rw [hmr, hl, hk]
      rfl
    · intro hv
      rw [hv] at hl
      rw [hmr, hl]
      exact hk
  · rintro raw v rfl hs huniq
    rw [mergeResults_single existing raw k v e hk hs huniq]
    refine ⟨by rw [dget_dinsert, if_pos rfl], fun f hf => dget_dupdate_none e hf⟩

/-- C4 witness: a two-entry update map (one new id, one partial update
of an existing id) overwrites the status of the existing id but keeps
the evidence already on file, and the id stays present; the single-entry
conjunct is exercised on the one-entry update map. -/
theorem C4_merge_frame_witness :
    (dget (PKey.strK "Z_1") (mergeResults c4Existing c4Update2)).isSome ∧
      dget (PKey.strK "Z_1") c4Update2 = some [("skladnost", "Neskladno")] ∧
      dget (PKey.strK "Z_1") (mergeResults c4Existing c4Update2) =
        some [("skladnost", "Neskladno"), ("evidence", "E1")] ∧
      dget ("evidence") [("skladnost", "Neskladno"), ("evidence", "E1")] =
        some "E1" ∧
      dget (PKey.strK "Z_1") (mergeResults c4Existing c4Update) =
        some [("skladnost", "Neskladno"), ("evidence", "E1")] := by
  have h := C4_merge_frame c4Existing c4Update2 (.strK "Z_1")
    [("skladnost", "Skladno"), ("evidence", "E1")] rfl
  have hex : StrKeys c4Existing := by
    intro kv hm
    rcases List.mem_singleton.1 hm with rfl
    exact ⟨"Z_1", rfl⟩
  have hu : StrKeys c4Update2 := by
    intro kv hm
    rcases List.mem_cons.1 hm with rfl | hm2
    · exact ⟨"Z_2", rfl⟩
    · rcases List.mem_singleton.1 hm2 with rfl
      exact ⟨"Z_1", rfl⟩
  have hnd : KeysNodup c4Update2 := by
    refine List.nodup_cons.2 ⟨?_, List.nodup_singleton _⟩
    intro hm
    rcases List.mem_singleton.1 hm with h'
    exact absurd (PKey.strK.inj h') (by decide)
  have h2 := (h.2.1 hex hu hnd).1 [("skladnost", "Neskladno")] rfl
  have hs := C4_merge_frame c4Existing c4Update (.strK "Z_1")
    [("skladnost", "Skladno"), ("evidence", "E1")] rfl
  have h3 := hs.2.2 (.strK "Z_1") [("skladnost", "Neskladno")] rfl rfl
    (by
      intro k' v' hm _
      have := List.mem_singleton.1 hm
      exact congrArg Prod.fst this)
  exact ⟨h.1, rfl, by rw [h2.1]; rfl, rfl, by rw [h3.1]; rfl⟩

/-- C5 counterexample: starting from an empty canonical map, merging
`A = {"1": {a: x}}` then `B = {2: {b: y}}` stores the second id as the
string key `"2"` (the preferred type after pass one is `str`), while
merging the combined update in one step keeps the int key `2` (the
preferred type is fixed before the loop and the canonical map was
empty), so the two final maps differ. -/
theorem C5_counterexample :
    dget (PKey.intK 2) (mergeResults (mergeResults [] c5A) c5B) = none ∧
      dget (PKey.strK "2") (mergeResults (mergeResults [] c5A) c5B) =
        some [("b", "y")] ∧
      dget (PKey.intK 2) (mergeResults [] (combineUpdates c5A c5B)) =
        some [("b", "y")] ∧
      mergeResults (mergeResults [] c5A) c5B ≠
        mergeResults [] (combineUpdates c5A c5B) :=
  ⟨rfl, rfl, rfl, by decide⟩

/-- C5 (amended): when the canonical map and both update maps use string
keys only (as the `"Z_<n>"` requirement ids do), merging update `A` then
update `B` yields the same final map — same key set, and per key the
same fields — as merging in one step the combined update formed from
`A`'s entries overwritten field-wise by `B`'s.  With mixed key
representations the claim fails (see the counterexample): the preferred
key type is read from the canonical map before each pass, so the two
orders can leave the same requirement id under different key types. -/
theorem C5_combined_merge (existing A B : PDict)
    (hex : StrKeys existing) (hA : StrKeys A) (hB : StrKeys B)
    (hAk : KeysNodup A) (hBk : KeysNodup B)
    (hAe : EntriesWF A) (hBe : EntriesWF B) :
    ∀ k, optFieldEq
      (dget k (mergeResults (mergeResults existing A) B))
      (dget k (mergeResults existing (combineUpdates A B))) := by
  intro k
  have hexA : StrKeys (mergeResults existing A) := by
    rw [mergeResults_strKeys existing A hex hA]
    exact strMergeFold_strKeys hex hA
  rw [mergeResults_strKeys _ B hexA hB,
      mergeResults_strKeys existing A hex hA,
      mergeResults_strKeys existing _ hex (combineUpdates_strKeys hA hB)]
  cases k with
  | intK n =>
    rw [strMergeFold_lookup _ _ hBk, strMergeFold_lookup _ _ hAk,
        strMergeFold_lookup _ _ (combineUpdates_keysNodup hAk),
        strKeys_dget_intK hA, strKeys_dget_intK hB,
        strKeys_dget_intK (combineUpdates_strKeys hA hB)]
    exact optFieldEq_refl _
  | strK s =>
    rw [strMergeFold_lookup _ _ hBk, strMergeFold_lookup _ _ hAk,
        strMergeFold_lookup _ _ (combineUpdates_keysNodup hAk),
        combineUpdates_lookup B A hAk hBk]
    cases hgA : dget (PKey.strK s) A with
    | some av =>
      have havn : (av.map Prod.fst).Nodup := hAe _ (dget_mem hgA)
      cases hgB : dget (PKey.strK s) B with
      | some bv =>
        have hbvn : (bv.map Prod.fst).Nodup := hBe _ (dget_mem hgB)
        simp only [Option.getD_some]
        show fieldEq _ _
        intro f
        rw [dget_dupdate_nodup _ hbvn, dget_dupdate_nodup _ havn,
            dget_dupdate_nodup _ (keysNodup_dupdate havn),
            dget_dupdate_nodup _ hbvn]
        cases dget f bv <;> cases dget f av <;> rfl
      | none =>
        simp only [Option.getD_some]
        exact optFieldEq_refl _
    | none =>
      cases hgB : dget (PKey.strK s) B with
      | some bv =>
        simp only [Option.getD_some]
        exact optFieldEq_refl _
      | none =>
        simp only [Option.getD_some]
        exact optFieldEq_refl _

/-- C5 witness: the amended theorem applied to concrete string-keyed
maps, together with a concrete evaluation of both orders. -/
theorem C5_combined_merge_witness :
    optFieldEq
      (dget (PKey.strK "Z_1")
        (mergeResults (mergeResults c4Existing c4Update)
          [(.strK "Z_1", [("evidence", "E2")])]))
      (dget (PKey.strK "Z_1")
        (mergeResults c4Existing
          (combineUpdates c4Update [(.strK "Z_1", [("evidence", "E2")])]))) := by
  have h := C5_combined_merge c4Existing c4Update
    [(.strK "Z_1", [("evidence", "E2")])]
    (by intro kv hm; rcases List.mem_singleton.1 hm with rfl; exact ⟨"Z_1", rfl⟩)
    (by intro kv hm; rcases List.mem_singleton.1 hm with rfl; exact ⟨"Z_1", rfl⟩)
    (by intro kv hm; rcases List.mem_singleton.1 hm with rfl; exact ⟨"Z_1", rfl⟩)
    (List.nodup_singleton _) (List.nodup_singleton _)
    (by intro kv hm; rcases List.mem_singleton.1 hm with rfl; decide)
    (by intro kv hm; rcases List.mem_singleton.1 hm with rfl; decide)
  exact h (PKey.strK "Z_1")

/-! ## String helpers for the derivation proofs -/

theorem toNat_ofNat_valid (n : Nat) (h : Nat.isValidChar n) :
    (Char.ofNat n).toNat = n := by
  unfold Char.ofNat
  rw [dif_pos h]
  simp [Char.ofNatAux, Char.toNat, UInt32.toNat, UInt32.ofNatCore]

theorem upChar_idem (c : Char) : upChar (upChar c) = upChar c := by
  unfold upChar
  by_cases h : 97 ≤ c.toNat ∧ c.toNat ≤ 122
  · rw [if_pos h]
    have hv : Nat.isValidChar (c.toNat - 32) := Or.inl (by omega)
    have ht : (Char.ofNat (c.toNat - 32)).toNat = c.toNat - 32 :=
      toNat_ofNat_valid _ hv
    rw [if_neg (by rw [ht]; omega)]
  · rw [if_neg h, if_neg h]

theorem pyUpper_idem (s : String) : pyUpper (pyUpper s) = pyUpper s := by
  unfold pyUpper
  apply congrArg String.mk
  show (s.data.map upChar).map upChar = s.data.map upChar
  rw [List.map_map]
  exact List.map_congr_left (fun c _ => upChar_idem c)

theorem strAppend_data (a b : String) : (a ++ b).data = a.data ++ b.data :=
  String.data_append a b

theorem strAppend_assoc (a b c : String) : a ++ b ++ c = a ++ (b ++ c) := by
  obtain ⟨la⟩ := a
  obtain ⟨lb⟩ := b
  obtain ⟨lc⟩ := c
  show String.mk (la ++ lb ++ lc) = String.mk (la ++ (lb ++ lc))
  rw [List.append_assoc]

theorem strAppend_empty (a : String) : a ++ "" = a := by
  obtain ⟨la⟩ := a
  show String.mk (la ++ []) = String.mk la
  rw [List.append_nil]

theorem strAppend_ne_empty_left (a b : String) (ha : a ≠ "") : a ++ b ≠ "" := by
  intro h
  apply ha
  have hd : a.data ++ b.data = [] := by
    rw [← strAppend_data, h]
  obtain ⟨h1, _⟩ := List.append_eq_nil.1 hd
  obtain ⟨la⟩ := a
  simp only at h1
  rw [h1]

theorem strAppend_eq_of_ne_suffix {base s : String} {other : String}
    (h : base ++ s = other) : base.data <+: other.data :=
  ⟨s.data, by rw [← h, strAppend_data]⟩

/-! ## The referred-to expansion: master specification -/

theorem extract_refs_props (ord : List String → List String)
    (hord : ∀ (l : List String) (x : String), x ∈ ord l → x ∈ l)
    (clenMap : ClenMap) (content : String) :
    ∀ r ∈ extract_referenced_namenske_rabe ord clenMap content,
      pyUpper r = r ∧ (dget r clenMap).isSome := by
  intro r hr
  unfold extract_referenced_namenske_rabe at hr
  rw [List.mem_filter] at hr
  refine ⟨?_, by simpa using hr.2⟩
  have hmem : r ∈ (collectRefs content).dedup := hord _ _ hr.1
  rw [List.mem_dedup] at hmem
  unfold collectRefs at hmem
  rw [List.mem_map] at hmem
  rcases hmem with ⟨m, _, rfl⟩
  exact pyUpper_idem m

theorem addPP_zero (ord : List String → List String) (clenMap : ClenMap)
    (orig : List String) (raba kat : String) (st : DeriveState) :
    add_podrobni_pogoji ord clenMap orig 0 raba kat st = st := rfl

theorem AddSpec_nil {clenMap : ClenMap} {orig : List String}
    {raba kat : String} {st st' : DeriveState} (h : st' = st) :
    AddSpec clenMap orig raba kat st st' := by
  subst h
  exact ⟨[], by simp, fun x => by simp, by simp, by simp, by simp⟩

theorem refsGo_spec (clenMap : ClenMap)
    (orig : List String)
    (step : String → String → DeriveState → DeriveState)
    (hstep : ∀ r k st, AddSpec clenMap orig r k st (step r k st)) :
    ∀ (refs : List String) (kat : String) (st : DeriveState),
      (∀ r ∈ refs, pyUpper r = r) →
      RefsSpec clenMap orig kat st (refsGo step orig refs kat st) := by
  intro refs
  induction refs with
  | nil =>
    intro kat st _
    exact ⟨[], by simp [refsGo], fun x => by simp [refsGo], by simp, by simp, by simp⟩
  | cons r rs ih =>
    intro kat st hup
    have hup' : ∀ x ∈ rs, pyUpper x = x := fun x hx => hup x (List.mem_cons_of_mem _ hx)
    show RefsSpec clenMap orig kat st
      (refsGo step orig rs kat (if r ∈ orig then st else step r (kat ++ napotiloSuffix) st))
    by_cases hr : r ∈ orig
    · rw [if_pos hr]
      exact ih kat st hup'
    · rw [if_neg hr]
      rcases hstep r (kat ++ napotiloSuffix) st with
        ⟨ps₁, hz₁, hv₁, hnd₁, hfr₁, hkat₁⟩
      rcases ih kat (step r (kat ++ napotiloSuffix) st) hup' with
        ⟨ps₂, hz₂, hv₂, hnd₂, hfr₂, hkat₂⟩
      refine ⟨ps₁ ++ ps₂, ?_, ?_, ?_, ?_, ?_⟩
      · rw [hz₂, hz₁, List.map_append, List.append_assoc]
      · intro x
        rw [hv₂ x, hv₁ x, List.map_append, List.mem_append]
        tauto
      · rw [List.map_append, List.nodup_append]
        refine ⟨hnd₁, hnd₂, ?_⟩
        intro a ha₁ ha₂
        rw [List.mem_map] at ha₂
        rcases ha₂ with ⟨e₂, he₂, rfl⟩
        have hfresh₂ := (hfr₂ e₂ he₂).2
        apply hfresh₂
        rw [hv₁ _]
        exact Or.inr ha₁
      · intro e he
        rcases List.mem_append.1 he with he₁ | he₂
        · exact hfr₁ e he₁
        · refine ⟨(hfr₂ e he₂).1, ?_⟩
          intro hmem
          exact (hfr₂ e he₂).2 ((hv₁ e.code).2 (Or.inl hmem))
      · intro e he
        rcases List.mem_append.1 he with he₁ | he₂
        · rcases hkat₁ e he₁ with ⟨hcode, hkat⟩ | ⟨hno, sfx, hsfx, hkat⟩
          · refine ⟨?_, napotiloSuffix, by decide, hkat⟩
            rw [hcode, hup r (List.mem_cons_self _ _)]
            exact hr
          · refine ⟨hno, napotiloSuffix ++ sfx, ?_, ?_⟩
            · exact strAppend_ne_empty_left _ _ (by decide)
            · rw [hkat, strAppend_assoc]
        · rcases hkat₂ e he₂ with ⟨hno, sfx, hsfx, hkat⟩
          exact ⟨hno, sfx, hsfx, hkat⟩

theorem addPP_spec (ord : List String → List String) (clenMap : ClenMap)
    (orig : List String)
    (hord : ∀ (l : List String) (x : String), x ∈ ord l → x ∈ l) :
    ∀ (fuel : Nat) (raba kat : String) (st : DeriveState),
      AddSpec clenMap orig raba kat st
        (add_podrobni_pogoji ord clenMap orig fuel raba kat st) := by
  intro fuel
  induction fuel with
  | zero => intro raba kat st; exact AddSpec_nil rfl
  | succ fuel ih =>
    intro raba kat st
    by_cases hv : pyUpper raba ∈ st.dodane_namenske_rabe
    · exact AddSpec_nil (by simp [add_podrobni_pogoji, hv])
    · cases hcd : dget (pyUpper raba) clenMap with
      | none => exact AddSpec_nil (by simp [add_podrobni_pogoji, hv, hcd])
      | some cd =>
        have hunfold : add_podrobni_pogoji ord clenMap orig (fuel + 1) raba kat st =
            refsGo (add_podrobni_pogoji ord clenMap orig fuel) orig
              (extract_referenced_namenske_rabe ord clenMap
                (format_structured_content cd.content_structured)) kat
              { zahteve := st.zahteve ++
                  [{ kategorija := kat,
                     naslov := mkNaslovNRP (pyUpper raba) cd,
                     besedilo := format_structured_content cd.content_structured,
                     clen := mkClenLabelNRP cd, id := "" }],
                dodane_namenske_rabe := sadd (pyUpper raba) st.dodane_namenske_rabe,
                dodani_cleni := sadd cd.parent_clen_key st.dodani_cleni } := by
          simp [add_podrobni_pogoji, hv, hcd]
        rw [hunfold]
        set st1 : DeriveState :=
          { zahteve := st.zahteve ++
              [{ kategorija := kat,
                 naslov := mkNaslovNRP (pyUpper raba) cd,
                 besedilo := format_structured_content cd.content_structured,
                 clen := mkClenLabelNRP cd, id := "" }],
            dodane_namenske_rabe := sadd (pyUpper raba) st.dodane_namenske_rabe,
            dodani_cleni := sadd cd.parent_clen_key st.dodani_cleni } with hst1
        have hrefs := extract_refs_props ord hord clenMap
          (format_structured_content cd.content_structured)
        rcases refsGo_spec clenMap orig _ ih _ kat st1
            (fun r hr => (hrefs r hr).1) with
          ⟨ps', hz', hv', hnd', hfr', hkat'⟩
        refine ⟨⟨pyUpper raba, cd, kat⟩ :: ps', ?_, ?_, ?_, ?_, ?_⟩
        · rw [hz', hst1]
          simp [emitOf, List.append_assoc]
        · intro x
          rw [hv' x, hst1]
          simp only [List.map_cons, List.mem_cons]
          rw [mem_sadd]
          tauto
        · rw [List.map_cons, List.nodup_cons]
          constructor
          · intro hmem
            rw [List.mem_map] at hmem
            rcases hmem with ⟨e, he, hcode⟩
            apply (hfr' e he).2
            rw [hst1]
            show e.code ∈ sadd (pyUpper raba) st.dodane_namenske_rabe
            rw [mem_sadd]
            exact Or.inl hcode
          · exact hnd'
        · intro e he
          rcases List.mem_cons.1 he with rfl | he'
          · exact ⟨hcd, hv⟩
          · refine ⟨(hfr' e he').1, ?_⟩
            intro hmem
            apply (hfr' e he').2
            rw [hst1]
            show e.code ∈ sadd (pyUpper raba) st.dodane_namenske_rabe
            rw [mem_sadd]
            exact Or.inr hmem
        · intro e he
          rcases List.mem_cons.1 he with rfl | he'
          · exact Or.inl ⟨rfl, rfl⟩
          · exact Or.inr (hkat' e he')

/-! ## Fuel stabilization: the expansion reaches its fixpoint within
catalog-size fuel -/

theorem refsGo_visited_mono (orig : List String)
    (step : String → String → DeriveState → DeriveState)
    (hstep : ∀ r k st x, x ∈ st.dodane_namenske_rabe →
      x ∈ (step r k st).dodane_namenske_rabe) :
    ∀ (refs : List String) (kat : String) (st : DeriveState) (x : String),
      x ∈ st.dodane_namenske_rabe →
      x ∈ (refsGo step orig refs kat st).dodane_namenske_rabe := by
  intro refs
  induction refs with
  | nil => intro kat st x hx; exact hx
  | cons r rs ih =>
    intro kat st x hx
    show x ∈ (refsGo step orig rs kat
      (if r ∈ orig then st else step r (kat ++ napotiloSuffix) st)).dodane_namenske_rabe
    apply ih
    by_cases hr : r ∈ orig
    · rw [if_pos hr]; exact hx
    · rw [if_neg hr]; exact hstep _ _ _ _ hx

theorem addPP_visited_mono (ord : List String → List String)
    (clenMap : ClenMap) (orig : List String) :
    ∀ (fuel : Nat) (raba kat : String) (st : DeriveState) (x : String),
      x ∈ st.dodane_namenske_rabe →
      x ∈ (add_podrobni_pogoji ord clenMap orig fuel raba kat st).dodane_namenske_rabe := by
  intro fuel
  induction fuel with
  | zero => intro raba kat st x hx; exact hx
  | succ fuel ih =>
    intro raba kat st x hx
    by_cases hv : pyUpper raba ∈ st.dodane_namenske_rabe
    · rw [show add_podrobni_pogoji ord clenMap orig (fuel + 1) raba kat st = st by
        simp [add_podrobni_pogoji, hv]]
      exact hx
    · cases hcd : dget (pyUpper raba) clenMap with
      | none =>
        rw [show add_podrobni_pogoji ord clenMap orig (fuel + 1) raba kat st = st by
          simp [add_podrobni_pogoji, hv, hcd]]
        exact hx
      | some cd =>
        simp only [add_podrobni_pogoji, hv, if_false, hcd]
        apply refsGo_visited_mono orig _ ih
        show x ∈ sadd (pyUpper raba) st.dodane_namenske_rabe
        rw [mem_sadd]
        exact Or.inr hx

theorem toFinset_sadd (c : String) (v : List String) :
    (sadd c v).toFinset = insert c v.toFinset := by
  ext x
  simp [mem_sadd, List.mem_toFinset]

theorem fuelBound_mono (clenMap : ClenMap) {v₁ v₂ : List String}
    (h : ∀ x, x ∈ v₁ → x ∈ v₂) :
    fuelBound clenMap v₂ ≤ fuelBound clenMap v₁ := by
  apply Finset.card_le_card
  apply Finset.sdiff_subset_sdiff (le_refl _)
  intro x hx
  rw [List.mem_toFinset] at hx ⊢
  exact h x hx

theorem fuelBound_sadd (clenMap : ClenMap) (c : String) (v : List String)
    (hc : (dget c clenMap).isSome) (hnv : c ∉ v) :
    fuelBound clenMap (sadd c v) + 1 = fuelBound clenMap v := by
  unfold fuelBound
  rw [toFinset_sadd, Finset.sdiff_insert]
  have hcmem : c ∈ (clenMap.map Prod.fst).toFinset \ v.toFinset := by
    rw [Finset.mem_sdiff, List.mem_toFinset, List.mem_toFinset]
    exact ⟨dget_isSome_iff_mem_keys.1 hc, hnv⟩
  rw [Finset.card_erase_of_mem hcmem]
  have hpos : 0 < ((clenMap.map Prod.fst).toFinset \ v.toFinset).card :=
    Finset.card_pos.2 ⟨c, hcmem⟩
  omega

theorem fuelBound_le_length (clenMap : ClenMap) (v : List String) :
    fuelBound clenMap v ≤ clenMap.length := by
  calc fuelBound clenMap v ≤ (clenMap.map Prod.fst).toFinset.card :=
        Finset.card_le_card (Finset.sdiff_subset)
    _ ≤ (clenMap.map Prod.fst).length := List.toFinset_card_le _
    _ = clenMap.length := List.length_map _ _

theorem addPP_succ_eq (ord : List String → List String) (clenMap : ClenMap)
    (orig : List String) :
    ∀ (n : Nat) (raba kat : String) (st : DeriveState),
      fuelBound clenMap st.dodane_namenske_rabe ≤ n →
      add_podrobni_pogoji ord clenMap orig (n + 1) raba kat st =
        add_podrobni_pogoji ord clenMap orig n raba kat st := by
  intro n
  induction n with
  | zero =>
    intro raba kat st hb
    by_cases hv : pyUpper raba ∈ st.dodane_namenske_rabe
    · simp [add_podrobni_pogoji, hv]
    · cases hcd : dget (pyUpper raba) clenMap with
      | none => simp [add_podrobni_pogoji, hv, hcd]
      | some cd =>
        exfalso
        have h1 := fuelBound_sadd clenMap (pyUpper raba) st.dodane_namenske_rabe
          (by rw [hcd]; rfl) hv
        omega
  | succ n ih =>
    intro raba kat st hb
    by_cases hv : pyUpper raba ∈ st.dodane_namenske_rabe
    · simp [add_podrobni_pogoji, hv]
    · cases hcd : dget (pyUpper raba) clenMap with
      | none => simp [add_podrobni_pogoji, hv, hcd]
      | some cd =>
        have hstep : ∀ (rs : List String) (kat' : String) (st' : DeriveState),
            fuelBound clenMap st'.dodane_namenske_rabe ≤ n →
            refsGo (add_podrobni_pogoji ord clenMap orig (n + 1)) orig rs kat' st' =
              refsGo (add_podrobni_pogoji ord clenMap orig n) orig rs kat' st' := by
          intro rs
          induction rs with
          | nil => intro kat' st' _; rfl
          | cons r t iht =>
            intro kat' st' hb'
            show refsGo _ orig t kat'
                (if r ∈ orig then st' else
                  add_podrobni_pogoji ord clenMap orig (n + 1) r (kat' ++ napotiloSuffix) st') =
              refsGo _ orig t kat'
                (if r ∈ orig then st' else
                  add_podrobni_pogoji ord clenMap orig n r (kat' ++ napotiloSuffix) st')
            by_cases hr : r ∈ orig
            · rw [if_pos hr, if_pos hr]
              exact iht kat' st' hb'
            · rw [if_neg hr, if_neg hr, ih r _ st' hb']
              apply iht
              refine le_trans (fuelBound_mono clenMap ?_) hb'
              exact fun x hx => addPP_visited_mono ord clenMap orig n r _ st' x hx
        have hb1 : fuelBound clenMap
            (sadd (pyUpper raba) st.dodane_namenske_rabe) ≤ n := by
          have h1 := fuelBound_sadd clenMap (pyUpper raba) st.dodane_namenske_rabe
            (by rw [hcd]; rfl) hv
          omega
        simp only [add_podrobni_pogoji, hv, if_false, hcd]
        exact hstep _ kat _ hb1

theorem addPP_fuel_add (ord : List String → List String) (clenMap : ClenMap)
    (orig : List String) (k : Nat) :
    ∀ (n : Nat) (raba kat : String) (st : DeriveState),
      fuelBound clenMap st.dodane_namenske_rabe ≤ n →
      add_podrobni_pogoji ord clenMap orig (n + k) raba kat st =
        add_podrobni_pogoji ord clenMap orig n raba kat st := by
  induction k with
  | zero => intro n raba kat st _; rfl
  | succ k ih =>
    intro n raba kat st hb
    have h1 : n + (k + 1) = (n + k) + 1 := by omega
    rw [h1, addPP_succ_eq ord clenMap orig (n + k) raba kat st
      (le_trans hb (by omega))]
    exact ih n raba kat st hb

theorem addPP_fuel_eq (ord : List String → List String) (clenMap : ClenMap)
    (orig : List String) (m n : Nat) (raba kat : String) (st : DeriveState)
    (hm : fuelBound clenMap st.dodane_namenske_rabe ≤ m)
    (hn : fuelBound clenMap st.dodane_namenske_rabe ≤ n) :
    add_podrobni_pogoji ord clenMap orig m raba kat st =
      add_podrobni_pogoji ord clenMap orig n raba kat st := by
  have hm' : m = fuelBound clenMap st.dodane_namenske_rabe +
      (m - fuelBound clenMap st.dodane_namenske_rabe) := by omega
  have hn' : n = fuelBound clenMap st.dodane_namenske_rabe +
      (n - fuelBound clenMap st.dodane_namenske_rabe) := by omega
  rw [hm', hn', addPP_fuel_add ord clenMap orig _ _ raba kat st le_rfl,
    addPP_fuel_add ord clenMap orig _ _ raba kat st le_rfl]

theorem landUsePhase_fuel_eq (ord : List String → List String)
    (clenMap : ClenMap) (orig : List String) :
    ∀ (rabas : List String) (st : DeriveState) (m n : Nat),
      clenMap.length ≤ m → clenMap.length ≤ n →
      landUsePhase ord clenMap orig m rabas st =
        landUsePhase ord clenMap orig n rabas st := by
  intro rabas
  induction rabas with
  | nil => intro st m n _ _; rfl
  | cons raba rs ih =>
    intro st m n hm hn
    show landUsePhase ord clenMap orig m rs
        (add_podrobni_pogoji ord clenMap orig m raba podrobniKat st) =
      landUsePhase ord clenMap orig n rs
        (add_podrobni_pogoji ord clenMap orig n raba podrobniKat st)
    rw [addPP_fuel_eq ord clenMap orig m n raba podrobniKat st
      (le_trans (fuelBound_le_length _ _) hm)
      (le_trans (fuelBound_le_length _ _) hn)]
    exact ih _ m n hm hn

theorem build_fueled_stable (ord : List String → List String)
    (clenMap : ClenMap) (splosni : List (String × String))
    (priloga2 : List Priloga2Entry) (priloga1 : Option Priloga1Data)
    (fuel : Nat) (eup_list raba_list : List String) (project_text : String)
    (hfuel : clenMap.length ≤ fuel) :
    build_requirements_fueled ord clenMap splosni priloga2 priloga1 fuel
        eup_list raba_list project_text =
      build_requirements_from_db ord clenMap splosni priloga2 priloga1
        eup_list raba_list project_text := by
  unfold build_requirements_from_db build_requirements_fueled
  simp only [landUsePhase_fuel_eq ord clenMap (original_rabe_upper raba_list)
    _ _ fuel clenMap.length hfuel le_rfl]

/-! ## Phase-level specification of the land-use phase -/

theorem landUsePhase_spec (ord : List String → List String) (clenMap : ClenMap)
    (orig : List String)
    (hord : ∀ (l : List String) (x : String), x ∈ ord l → x ∈ l) :
    ∀ (rabas : List String) (fuel : Nat) (st : DeriveState),
      PhaseSpec clenMap orig st (landUsePhase ord clenMap orig fuel rabas st) := by
  intro rabas
  induction rabas with
  | nil =>
    intro fuel st
    exact ⟨[], by simp [landUsePhase], fun x => by simp [landUsePhase], by simp, by simp, by simp⟩
  | cons raba rs ih =>
    intro fuel st
    show PhaseSpec clenMap orig st (landUsePhase ord clenMap orig fuel rs
      (add_podrobni_pogoji ord clenMap orig fuel raba podrobniKat st))
    rcases addPP_spec ord clenMap orig hord fuel raba podrobniKat st with
      ⟨ps₁, hz₁, hv₁, hnd₁, hfr₁, hkat₁⟩
    rcases ih fuel (add_podrobni_pogoji ord clenMap orig fuel raba podrobniKat st) with
      ⟨ps₂, hz₂, hv₂, hnd₂, hfr₂, hkat₂⟩
    refine ⟨ps₁ ++ ps₂, ?_, ?_, ?_, ?_, ?_⟩
    · rw [hz₂, hz₁, List.map_append, List.append_assoc]
    · intro x
      rw [hv₂ x, hv₁ x, List.map_append, List.mem_append]
      tauto
    · rw [List.map_append, List.nodup_append]
      refine ⟨hnd₁, hnd₂, ?_⟩
      intro a ha₁ ha₂
      rw [List.mem_map] at ha₂
      rcases ha₂ with ⟨e₂, he₂, rfl⟩
      apply (hfr₂ e₂ he₂).2
      rw [hv₁ _]
      exact Or.inr ha₁
    · intro e he
      rcases List.mem_append.1 he with he₁ | he₂
      · exact hfr₁ e he₁
      · refine ⟨(hfr₂ e he₂).1, ?_⟩
        intro hmem
        exact (hfr₂ e he₂).2 ((hv₁ e.code).2 (Or.inl hmem))
    · intro e he
      rcases List.mem_append.1 he with he₁ | he₂
      · rcases hkat₁ e he₁ with ⟨hcode, hkat⟩ | ⟨hno, sfx, hsfx, hkat⟩
        · exact ⟨"", by rw [hkat, strAppend_empty], Or.inl rfl⟩
        · exact ⟨sfx, hkat, Or.inr hno⟩
      · exact hkat₂ e he₂

/-! ## The general-clause phase: exact characterization -/

theorem splosniFold_decomp (splosni : List (String × String)) (trig : List String) :
    ∀ (nums : List Nat) (st : DeriveState),
      (nums.map gClenKey).Nodup →
      (∀ i ∈ nums, gClenKey i ∉ st.dodani_cleni) →
      (nums.foldl (splosniStep splosni trig) st).zahteve =
        st.zahteve ++ nums.filterMap
          (fun i => if gKeep splosni trig i then some (gEntry splosni i) else none) := by
  intro nums
  induction nums with
  | nil => intro st _ _; simp
  | cons i t ih =>
    intro st hnd hfresh
    have hnd' : (gClenKey i :: t.map gClenKey).Nodup := by simpa using hnd
    have hnotin : gClenKey i ∉ t.map gClenKey := (List.nodup_cons.1 hnd').1
    have hndt : (t.map gClenKey).Nodup := (List.nodup_cons.1 hnd').2
    have hfresht : ∀ j ∈ t, gClenKey j ∉ st.dodani_cleni :=
      fun j hj => hfresh j (List.mem_cons_of_mem _ hj)
    rw [List.foldl_cons]
    by_cases hcond : ¬ (i ≤ 66) ∧ gClenKey i ∉ trig
    · have hstep : splosniStep splosni trig st i = st := by
        simp only [splosniStep]
        rw [if_pos hcond]
      have hkeep : gKeep splosni trig i = false := by
        simp only [gKeep]
        rw [decide_eq_false hcond.1, decide_eq_false hcond.2]
        simp
      rw [hstep, ih st hndt hfresht]
      simp [List.filterMap_cons, hkeep]
    · have hfr : gClenKey i ∉ st.dodani_cleni := hfresh i (List.mem_cons_self _ _)
      have hor : i ≤ 66 ∨ gClenKey i ∈ trig := by
        rcases not_and_or.1 hcond with h | h
        · exact Or.inl (not_not.1 h)
        · exact Or.inr (not_not.1 h)
      cases hdg : dget (gClenKey i) splosni with
      | none =>
        have hstep : splosniStep splosni trig st i = st := by
          simp only [splosniStep]
          rw [if_neg hcond, if_neg hfr, hdg]
        have hkeep : gKeep splosni trig i = false := by
          simp [gKeep, hdg]
        rw [hstep, ih st hndt hfresht]
        simp [List.filterMap_cons, hkeep]
      | some content =>
        by_cases hemp : content = ""
        · subst hemp
          have hstep : splosniStep splosni trig st i = st := by
            simp only [splosniStep]
            rw [if_neg hcond, if_neg hfr, hdg]
            rfl
          have hkeep : gKeep splosni trig i = false := by
            simp [gKeep, hdg]
          rw [hstep, ih st hndt hfresht]
          simp [List.filterMap_cons, hkeep]
        · have hstep : splosniStep splosni trig st i =
              { st with zahteve := st.zahteve ++ [gEntry splosni i],
                        dodani_cleni := sadd (gClenKey i) st.dodani_cleni } := by
            simp only [splosniStep]
            rw [if_neg hcond, if_neg hfr, hdg]
            simp [hemp, gEntry, hdg]
          have hkeep : gKeep splosni trig i = true := by
            rcases hor with h | h <;> simp [gKeep, hdg, h, hemp]
          have hfresh' : ∀ j ∈ t, gClenKey j ∉ sadd (gClenKey i) st.dodani_cleni := by
            intro j hj hmem
            rcases (mem_sadd _ _ _).1 hmem with heq | hmem'
            · exact hnotin (heq ▸ List.mem_map_of_mem gClenKey hj)
            · exact hfresht j hj hmem'
          rw [hstep, ih _ hndt hfresh']
          simp [List.filterMap_cons, hkeep]

theorem splosniPhase_decomp (splosni : List (String × String)) (trig : List String)
    (st : DeriveState) (hfresh : ∀ i ∈ List.range' 52 52, gClenKey i ∉ st.dodani_cleni) :
    (splosniPhase splosni trig st).zahteve = st.zahteve ++ gPhaseList splosni trig := by
  have hnd : ((List.range' 52 52).map gClenKey).Nodup := by decide
  exact splosniFold_decomp splosni trig (List.range' 52 52) st hnd hfresh

/-! ## The planning-unit phase appends only EUP-category requirements -/

theorem eupStep_zahteve (entries : List Priloga2Entry)
    (acc : DeriveState × List String) (eup : String) :
    ∃ es : List Zahteva,
      (eupStep entries acc eup).1.zahteve = acc.1.zahteve ++ es ∧
      ∀ z ∈ es, z.kategorija = posebniEupKat := by
  unfold eupStep
  dsimp only
  split
  · exact ⟨[], by simp, by simp⟩
  · split
    · exact ⟨[], by simp, by simp⟩
    · split
      · exact ⟨[], by simp, by simp⟩
      · split
        · refine ⟨[_], rfl, ?_⟩
          intro z hz
          rcases List.mem_singleton.1 hz with rfl
          rfl
        · exact ⟨[], by simp, by simp⟩

theorem eupFold_zahteve (entries : List Priloga2Entry) :
    ∀ (eupList : List String) (acc : DeriveState × List String),
      ∃ es : List Zahteva,
        (eupList.foldl (eupStep entries) acc).1.zahteve = acc.1.zahteve ++ es ∧
        ∀ z ∈ es, z.kategorija = posebniEupKat := by
  intro eupList
  induction eupList with
  | nil => intro acc; exact ⟨[], by simp, by simp⟩
  | cons eup t ih =>
    intro acc
    rcases eupStep_zahteve entries acc eup with ⟨es₀, h₀, hk₀⟩
    rcases ih (eupStep entries acc eup) with ⟨es₁, h₁, hk₁⟩
    refine ⟨es₀ ++ es₁, ?_, ?_⟩
    · rw [List.foldl_cons, h₁, h₀, List.append_assoc]
    · intro z hz
      rcases List.mem_append.1 hz with h | h
      · exact hk₀ z h
      · exact hk₁ z h

theorem eupPhase_zahteve (entries : List Priloga2Entry) (eupList : List String)
    (st : DeriveState) :
    ∃ es : List Zahteva,
      (eupPhase entries eupList st).zahteve = st.zahteve ++ es ∧
      ∀ z ∈ es, z.kategorija = posebniEupKat :=
  eupFold_zahteve entries eupList (st, [])

/-! ## The priloga-1 appendix -/

theorem priloga1Phase_kat (priloga1 : Option Priloga1Data) (ciste : List String) :
    ∀ z ∈ priloga1Phase priloga1 ciste, z.kategorija = priloga1Kat := by
  intro z hz
  unfold priloga1Phase at hz
  dsimp only at hz
  split at hz
  · split at hz
    · rcases List.mem_singleton.1 hz with rfl
      rfl
    · exact absurd hz (List.not_mem_nil _)
  · exact absurd hz (List.not_mem_nil _)

/-! ## Sequential id assignment: counting and membership transfer -/

theorem enumMap_countP (p : Zahteva → Bool)
    (hp : ∀ (z : Zahteva) (s : String), p { z with id := s } = p z) :
    ∀ (l : List Zahteva) (n : Nat),
      ((List.enumFrom n l).map
        (fun q => { q.2 with id := "Z_" ++ Nat.repr q.1 })).countP p = l.countP p := by
  intro l
  induction l with
  | nil => intro n; rfl
  | cons z t ih =>
    intro n
    show List.countP p (({ z with id := "Z_" ++ Nat.repr n } : Zahteva) ::
      (List.enumFrom (n + 1) t).map (fun q => { q.2 with id := "Z_" ++ Nat.repr q.1 }))
        = List.countP p (z :: t)
    rw [List.countP_cons, List.countP_cons, hp, ih]

theorem assignIds_countP (p : Zahteva → Bool)
    (hp : ∀ (z : Zahteva) (s : String), p { z with id := s } = p z)
    (l : List Zahteva) : (assignIds l).countP p = l.countP p :=
  enumMap_countP p hp l 0

theorem enumMap_mem :
    ∀ (l : List Zahteva) (n : Nat) (z : Zahteva),
      z ∈ (List.enumFrom n l).map (fun q => { q.2 with id := "Z_" ++ Nat.repr q.1 }) →
      ∃ z₀ ∈ l, z = { z₀ with id := z.id } := by
  intro l
  induction l with
  | nil => intro n z h; exact absurd h (List.not_mem_nil _)
  | cons z₁ t ih =>
    intro n z h
    have h' : z ∈ ({ z₁ with id := "Z_" ++ Nat.repr n } : Zahteva) ::
        (List.enumFrom (n + 1) t).map (fun q => { q.2 with id := "Z_" ++ Nat.repr q.1 }) := h
    rcases List.mem_cons.1 h' with rfl | hmem
    · exact ⟨z₁, List.mem_cons_self _ _, rfl⟩
    · rcases ih (n + 1) z hmem with ⟨z₀, hz₀, heq⟩
      exact ⟨z₀, List.mem_cons_of_mem _ hz₀, heq⟩

theorem assignIds_mem {l : List Zahteva} {z : Zahteva} (h : z ∈ assignIds l) :
    ∃ z₀ ∈ l, z = { z₀ with id := z.id } :=
  enumMap_mem l 0 z h

theorem enumMap_filter_map (p : Zahteva → Bool) (g : Zahteva → String)
    (hp : ∀ (z : Zahteva) (s : String), p { z with id := s } = p z)
    (hg : ∀ (z : Zahteva) (s : String), g { z with id := s } = g z) :
    ∀ (l : List Zahteva) (n : Nat),
      (((List.enumFrom n l).map
          (fun q => { q.2 with id := "Z_" ++ Nat.repr q.1 })).filter p).map g
        = (l.filter p).map g := by
  intro l
  induction l with
  | nil => intro n; rfl
  | cons z t ih =>
    intro n
    show (((({ z with id := "Z_" ++ Nat.repr n } : Zahteva) ::
        (List.enumFrom (n + 1) t).map
          (fun q => { q.2 with id := "Z_" ++ Nat.repr q.1 })).filter p).map g)
      = ((z :: t).filter p).map g
    rw [List.filter_cons, List.filter_cons, hp]
    by_cases hpz : p z = true
    · rw [if_pos hpz, if_pos hpz, List.map_cons, List.map_cons, hg, ih]
    · rw [if_neg hpz, if_neg hpz]
      exact ih (n + 1)

theorem assignIds_filter_map (p : Zahteva → Bool) (g : Zahteva → String)
    (hp : ∀ (z : Zahteva) (s : String), p { z with id := s } = p z)
    (hg : ∀ (z : Zahteva) (s : String), g { z with id := s } = g z)
    (l : List Zahteva) :
    ((assignIds l).filter p).map g = (l.filter p).map g :=
  enumMap_filter_map p g hp hg l 0

/-! ## Counting helpers -/

theorem countP_zero_of_false {P : Zahteva → Bool} {l : List Zahteva}
    (h : ∀ z ∈ l, P z = false) : l.countP P = 0 := by
  rw [List.countP_eq_zero]
  intro a ha ha'
  rw [h a ha] at ha'
  exact Bool.false_ne_true ha'

theorem countP_filterMap_if {α β : Type} (p : α → Bool) (f : α → β) (q : β → Bool) :
    ∀ l : List α,
      (l.filterMap (fun a => if p a then some (f a) else none)).countP q
        = l.countP (fun a => p a && q (f a)) := by
  intro l
  induction l with
  | nil => rfl
  | cons a t ih =>
    cases hpa : p a with
    | true =>
      have h1 : List.filterMap (fun a => if p a then some (f a) else none) (a :: t)
          = f a :: List.filterMap (fun a => if p a then some (f a) else none) t := by
        simp [List.filterMap_cons, hpa]
      rw [h1, List.countP_cons, List.countP_cons, ih, hpa]
      simp
    | false =>
      have h1 : List.filterMap (fun a => if p a then some (f a) else none) (a :: t)
          = List.filterMap (fun a => if p a then some (f a) else none) t := by
        simp [List.filterMap_cons, hpa]
      rw [h1, ih, List.countP_cons, hpa]
      simp

theorem map_filterMap_if {α β : Type} (p : α → Bool) (f : α → β) (g : β → String) :
    ∀ l : List α,
      ((l.filterMap (fun a => if p a then some (f a) else none)).map g)
        = (l.filter p).map (fun a => g (f a)) := by
  intro l
  induction l with
  | nil => rfl
  | cons a t ih =>
    cases hpa : p a with
    | true => simp [List.filterMap_cons, List.filter_cons, hpa, ih]
    | false => simp [List.filterMap_cons, List.filter_cons, hpa, ih]

theorem countP_label_unique (lab : Nat → String) :
    ∀ (nums : List Nat), (nums.map lab).Nodup → ∀ i ∈ nums, ∀ (p : Nat → Bool),
      nums.countP (fun j => p j && decide (lab j = lab i)) = if p i then 1 else 0 := by
  intro nums
  induction nums with
  | nil => intro _ i hi; exact absurd hi (List.not_mem_nil _)
  | cons j t ih =>
    intro hnd i hi p
    have hnd' : (lab j :: t.map lab).Nodup := by simpa using hnd
    have hnotin : lab j ∉ t.map lab := (List.nodup_cons.1 hnd').1
    have hndt : (t.map lab).Nodup := (List.nodup_cons.1 hnd').2
    rw [List.countP_cons]
    rcases List.mem_cons.1 hi with rfl | hmem
    · have hzero : t.countP (fun k => p k && decide (lab k = lab i)) = 0 := by
        rw [List.countP_eq_zero]
        intro k hk hkp
        rw [Bool.and_eq_true] at hkp
        have hlk : lab k = lab i := of_decide_eq_true hkp.2
        exact hnotin (hlk ▸ List.mem_map_of_mem lab hk)
      rw [hzero]
      simp
    · have hne : lab j ≠ lab i := by
        intro heq
        have hmm : lab i ∈ t.map lab := List.mem_map_of_mem lab hmem
        rw [← heq] at hmm
        exact hnotin hmm
      have hhead : (p j && decide (lab j = lab i)) = false := by
        rw [decide_eq_false hne, Bool.and_false]
      rw [hhead, ih hndt i hmem p]
      simp

/-! ## Category separation of the phases -/

theorem podrobni_ne_splosni (sfx : String) : podrobniKat ++ sfx ≠ splosniKat := by
  intro h
  have hd : podrobniKat.data ++ sfx.data = splosniKat.data := by
    rw [← strAppend_data, h]
  have hlen : podrobniKat.data.length + sfx.data.length = splosniKat.data.length := by
    rw [← List.length_append, hd]
  have h1 : podrobniKat.data.length = 46 := by decide
  have h2 : splosniKat.data.length = 41 := by decide
  omega

theorem isLandUse_false_of_kat {clenMap : ClenMap} {c : String} {z : Zahteva}
    (h : strStarts podrobniKat z.kategorija = false) :
    isLandUseEntryFor clenMap c z = false := by
  unfold isLandUseEntryFor
  rw [h, Bool.false_and]

theorem isGeneral_false_of_kat {i : Nat} {z : Zahteva} (h : z.kategorija ≠ splosniKat) :
    isGeneralEntryFor i z = false := by
  unfold isGeneralEntryFor
  rw [decide_eq_false h, Bool.false_and]

theorem strStarts_splosni : strStarts podrobniKat splosniKat = false := by decide

theorem strStarts_eup : strStarts podrobniKat posebniEupKat = false := by decide

theorem strStarts_p1 : strStarts podrobniKat priloga1Kat = false := by decide

theorem gPhaseList_kat (splosni : List (String × String)) (trig : List String) :
    ∀ z ∈ gPhaseList splosni trig, z.kategorija = splosniKat := by
  intro z hz
  unfold gPhaseList at hz
  rw [List.mem_filterMap] at hz
  rcases hz with ⟨i, _, hif⟩
  by_cases h : gKeep splosni trig i = true
  · rw [if_pos h] at hif
    rw [← Option.some.inj hif]
    rfl
  · rw [if_neg h] at hif
    exact absurd hif (by simp)

/-! ## The land-use emission record of one catalog code -/

theorem emit_lu_code {clenMap : ClenMap} (hinj : NInjOn clenMap) {c : String}
    {e : EmitRec} (hcd : dget e.code clenMap = some e.cd)
    (hq : isLandUseEntryFor clenMap c (emitOf e) = true) : e.code = c := by
  unfold isLandUseEntryFor at hq
  rw [Bool.and_eq_true] at hq
  rcases hq with ⟨_, hm⟩
  cases hdg : dget c clenMap with
  | none => rw [hdg] at hm; exact absurd hm (by simp)
  | some cd =>
    rw [hdg] at hm
    have hne : (emitOf e).naslov = mkNaslovNRP c cd := of_decide_eq_true hm
    exact hinj e.code e.cd c cd hcd hdg hne

theorem emit_count_le_one {clenMap : ClenMap} (hinj : NInjOn clenMap) (c : String) :
    ∀ ps : List EmitRec, (ps.map EmitRec.code).Nodup →
      (∀ e ∈ ps, dget e.code clenMap = some e.cd) →
      (ps.map emitOf).countP (isLandUseEntryFor clenMap c) ≤ 1 := by
  intro ps
  induction ps with
  | nil => intro _ _; simp
  | cons e t ih =>
    intro hnd hcd
    have hnd' : (e.code :: t.map EmitRec.code).Nodup := by simpa using hnd
    have hnotin : e.code ∉ t.map EmitRec.code := (List.nodup_cons.1 hnd').1
    have hndt : (t.map EmitRec.code).Nodup := (List.nodup_cons.1 hnd').2
    have hcdt : ∀ e' ∈ t, dget e'.code clenMap = some e'.cd :=
      fun e' he' => hcd e' (List.mem_cons_of_mem _ he')
    rw [List.map_cons, List.countP_cons]
    by_cases hq : isLandUseEntryFor clenMap c (emitOf e) = true
    · have hec : e.code = c := emit_lu_code hinj (hcd e (List.mem_cons_self _ _)) hq
      have hzero : (t.map emitOf).countP (isLandUseEntryFor clenMap c) = 0 := by
        rw [List.countP_eq_zero]
        intro z hz hzq
        rw [List.mem_map] at hz
        rcases hz with ⟨e', he', rfl⟩
        have hec' : e'.code = c := emit_lu_code hinj (hcdt e' he') hzq
        exact hnotin ((hec'.trans hec.symm) ▸ List.mem_map_of_mem EmitRec.code he')
      rw [hzero, if_pos hq]
    · rw [if_neg hq]
      simpa using ih hndt hcdt

/-! ## Decomposition of the whole derivation run -/

theorem build_decomp (ord : List String → List String) (clenMap : ClenMap)
    (splosni : List (String × String)) (priloga2 : List Priloga2Entry)
    (priloga1 : Option Priloga1Data) (eup_list raba_list : List String)
    (project_text : String)
    (hord : ∀ (l : List String) (x : String), x ∈ ord l → x ∈ l) :
    ∃ (ps : List EmitRec) (es p1s : List Zahteva),
      build_requirements_from_db ord clenMap splosni priloga2 priloga1
          eup_list raba_list project_text
        = assignIds (gPhaseList splosni (triggered_optional_cleni project_text)
            ++ ps.map emitOf ++ es ++ p1s) ∧
      (ps.map EmitRec.code).Nodup ∧
      (∀ e ∈ ps, dget e.code clenMap = some e.cd) ∧
      (∀ e ∈ ps, ∃ sfx, e.kat = podrobniKat ++ sfx ∧
        (sfx = "" ∨ e.code ∉ original_rabe_upper raba_list)) ∧
      (∀ z ∈ es, z.kategorija = posebniEupKat) ∧
      (∀ z ∈ p1s, z.kategorija = priloga1Kat) := by
  set orig := original_rabe_upper raba_list with horig
  set trig := triggered_optional_cleni project_text with htrig
  set st0 : DeriveState :=
    { zahteve := [], dodane_namenske_rabe := [], dodani_cleni := [] } with hst0
  set st1 := splosniPhase splosni trig st0 with hst1
  set ciste := ciste_namenske_rabe orig clenMap with hciste
  set st2 := landUsePhase ord clenMap orig clenMap.length ciste st1 with hst2
  set st3 := eupPhase priloga2 eup_list st2 with hst3
  have hbuild : build_requirements_from_db ord clenMap splosni priloga2 priloga1
      eup_list raba_list project_text
      = assignIds (st3.zahteve ++ priloga1Phase priloga1 ciste) := rfl
  have hfresh0 : ∀ i ∈ List.range' 52 52, gClenKey i ∉ st0.dodani_cleni := by
    intro i _ h
    exact List.not_mem_nil _ h
  have hg : st1.zahteve = gPhaseList splosni trig := by
    rw [hst1, splosniPhase_decomp splosni trig st0 hfresh0]
    rfl
  rcases eupPhase_zahteve priloga2 eup_list st2 with ⟨es, hes, hkes⟩
  rcases landUsePhase_spec ord clenMap orig hord ciste clenMap.length st1 with
    ⟨ps, hz, hv, hnd, hfr, hkat⟩
  refine ⟨ps, es, priloga1Phase priloga1 ciste, ?_, hnd,
    fun e he => (hfr e he).1, hkat, hkes, priloga1Phase_kat priloga1 ciste⟩
  rw [hbuild, hst3, hes, hst2, hz, hg]

/-! ## The cyclic witness catalog satisfies the title-injectivity side
condition -/

theorem catCyc_dget {c : String} {cd : ClenData} (h : dget c catCyc = some cd) :
    (c = "A" ∧ cd = cdA2) ∨ (c = "B" ∧ cd = cdB2) := by
  by_cases hA : c = "A"
  · subst hA
    exact Or.inl ⟨rfl, (Option.some.inj h).symm⟩
  · by_cases hB : c = "B"
    · subst hB
      exact Or.inr ⟨rfl, (Option.some.inj h).symm⟩
    · exfalso
      simp [catCyc, dget, hA, hB] at h

theorem catCyc_ninj : NInjOn catCyc := by
  intro c₁ cd₁ c₂ cd₂ h₁ h₂ heq
  rcases catCyc_dget h₁ with ⟨rfl, rfl⟩ | ⟨rfl, rfl⟩ <;>
    rcases catCyc_dget h₂ with ⟨rfl, rfl⟩ | ⟨rfl, rfl⟩
  · rfl
  · exact absurd heq (by decide)
  · exact absurd heq (by decide)
  · rfl

/-- **C2**: for every input — including a cyclic land-use reference
graph — the recursive referred-to expansion stabilizes (any recursion
budget of at least the catalog size, the visited-set bound, yields the
same derivation: the traversal terminates), and each land-use code is
emitted at most once per derivation run, no matter how many clauses
reference it. -/
theorem C2_expansion (ord : List String → List String) (clenMap : ClenMap)
    (splosni : List (String × String)) (priloga2 : List Priloga2Entry)
    (priloga1 : Option Priloga1Data) (eup_list raba_list : List String)
    (project_text : String) (fuel : Nat)
    (hord : ∀ (l : List String) (x : String), x ∈ ord l → x ∈ l)
    (hinj : NInjOn clenMap) (hfuel : clenMap.length ≤ fuel) :
    build_requirements_fueled ord clenMap splosni priloga2 priloga1 fuel
        eup_list raba_list project_text
      = build_requirements_from_db ord clenMap splosni priloga2 priloga1
          eup_list raba_list project_text ∧
    ∀ c, countLandUseFor clenMap c
        (build_requirements_from_db ord clenMap splosni priloga2 priloga1
          eup_list raba_list project_text) ≤ 1 := by
  constructor
  · exact build_fueled_stable ord clenMap splosni priloga2 priloga1 fuel
      eup_list raba_list project_text hfuel
  · intro c
    rcases build_decomp ord clenMap splosni priloga2 priloga1 eup_list raba_list
      project_text hord with ⟨ps, es, p1s, heq, hnd, hcd, _, hkes, hkp1⟩
    unfold countLandUseFor
    rw [heq]
    have hp : ∀ (z : Zahteva) (s : String),
        isLandUseEntryFor clenMap c { z with id := s }
          = isLandUseEntryFor clenMap c z := fun z s => rfl
    rw [assignIds_countP _ hp]
    simp only [List.countP_append]
    have hG : (gPhaseList splosni (triggered_optional_cleni project_text)).countP
        (isLandUseEntryFor clenMap c) = 0 :=
      countP_zero_of_false (fun z hz => isLandUse_false_of_kat
        (by rw [gPhaseList_kat _ _ z hz, strStarts_splosni]))
    have hE : es.countP (isLandUseEntryFor clenMap c) = 0 :=
      countP_zero_of_false (fun z hz => isLandUse_false_of_kat
        (by rw [hkes z hz, strStarts_eup]))
    have hP1 : p1s.countP (isLandUseEntryFor clenMap c) = 0 :=
      countP_zero_of_false (fun z hz => isLandUse_false_of_kat
        (by rw [hkp1 z hz, strStarts_p1]))
    have hLU : (ps.map emitOf).countP (isLandUseEntryFor clenMap c) ≤ 1 :=
      emit_count_le_one hinj c ps hnd hcd
    omega

/-- Witness for C2 on the cyclic catalog (A references B, B references
A): fuel 2 — the visited-set bound — already computes the run, and code
B, referenced by A and expanded recursively, appears exactly once, so
in particular at most once. -/
theorem C2_expansion_witness :
    NInjOn catCyc ∧ List.length catCyc ≤ 2 ∧
    (build_requirements_fueled (fun l => l) catCyc [] [] none 2 [] ["A"] ""
      = build_requirements_from_db (fun l => l) catCyc [] [] none [] ["A"] "") ∧
    countLandUseFor catCyc "B"
      (build_requirements_from_db (fun l => l) catCyc [] [] none [] ["A"] "") ≤ 1 :=
  ⟨catCyc_ninj, by decide,
   (C2_expansion (fun l => l) catCyc [] [] none [] ["A"] "" 2
     (fun _ _ h => h) catCyc_ninj (by decide)).1,
   (C2_expansion (fun l => l) catCyc [] [] none [] ["A"] "" 2
     (fun _ _ h => h) catCyc_ninj (by decide)).2 "B"⟩

/-- **C10**: a land-use code that is in the caller's normalized input
list and in the catalog is only ever emitted under the direct land-use
category: a reference to it from another clause's text never produces a
`- Napotilo` entry for it, even when the reference is scanned first. -/
theorem C10_direct (ord : List String → List String) (clenMap : ClenMap)
    (splosni : List (String × String)) (priloga2 : List Priloga2Entry)
    (priloga1 : Option Priloga1Data) (eup_list raba_list : List String)
    (project_text : String)
    (hord : ∀ (l : List String) (x : String), x ∈ ord l → x ∈ l)
    (hinj : NInjOn clenMap) (c : String)
    (hc : c ∈ original_rabe_upper raba_list) (z : Zahteva)
    (hz : z ∈ build_requirements_from_db ord clenMap splosni priloga2 priloga1
      eup_list raba_list project_text)
    (hlu : isLandUseEntryFor clenMap c z = true) :
    z.kategorija = podrobniKat := by
  rcases build_decomp ord clenMap splosni priloga2 priloga1 eup_list raba_list
    project_text hord with ⟨ps, es, p1s, heq, hnd, hcd, hkat, hkes, hkp1⟩
  rw [heq] at hz
  rcases assignIds_mem hz with ⟨z₀, hz₀, hzeq⟩
  have hkat0 : z.kategorija = z₀.kategorija := by rw [hzeq]
  have hlu0 : isLandUseEntryFor clenMap c z₀ = true := by
    rw [hzeq] at hlu
    exact hlu
  rw [hkat0]
  rcases List.mem_append.1 hz₀ with hz₁ | hzp1
  · rcases List.mem_append.1 hz₁ with hz₂ | hze
    · rcases List.mem_append.1 hz₂ with hzg | hzlu
      · exact absurd hlu0 (by
          rw [isLandUse_false_of_kat
            (by rw [gPhaseList_kat _ _ z₀ hzg, strStarts_splosni])]
          simp)
      · rw [List.mem_map] at hzlu
        rcases hzlu with ⟨e, he, rfl⟩
        have hec : e.code = c :=
          emit_lu_code hinj (hcd e he) hlu0
        rcases hkat e he with ⟨sfx, hk, hor'⟩
        rcases hor' with rfl | hno
        · show e.kat = podrobniKat
          rw [hk, strAppend_empty]
        · exact absurd hc (by rw [← hec]; exact hno)
    · exact absurd hlu0 (by
        rw [isLandUse_false_of_kat (by rw [hkes z₀ hze, strStarts_eup])]
        simp)
  · exact absurd hlu0 (by
      rw [isLandUse_false_of_kat (by rw [hkp1 z₀ hzp1, strStarts_p1])]
      simp)

/-- Witness for C10: in the cyclic-catalog run with inputs A and B, the
text of A references B and is scanned before B's direct emission, yet
B's requirement (the second one emitted, id Z_1) carries the direct
land-use category. -/
theorem C10_direct_witness :
    ("B" ∈ original_rabe_upper ["A", "B"]) ∧
    c10z ∈ build_requirements_from_db (fun l => l) catCyc [] [] none
      [] ["A", "B"] "" ∧
    isLandUseEntryFor catCyc "B" c10z = true ∧
    c10z.kategorija = podrobniKat :=
  ⟨by decide, by decide, by decide,
   C10_direct (fun l => l) catCyc [] [] none [] ["A", "B"] ""
     (fun _ _ h => h) catCyc_ninj "B" (by decide) c10z (by decide) (by decide)⟩

/-! ## C3: the mandatory general clauses -/

theorem gPhaseList_count (splosni : List (String × String)) (trig : List String)
    (i : Nat) (hmem : i ∈ List.range' 52 52) :
    (gPhaseList splosni trig).countP (isGeneralEntryFor i)
      = if gKeep splosni trig i then 1 else 0 := by
  have hlabnd : ((List.range' 52 52).map gClenLabel).Nodup := by decide
  unfold gPhaseList
  rw [countP_filterMap_if]
  have hcongr : ∀ j ∈ List.range' 52 52,
      (gKeep splosni trig j && isGeneralEntryFor i (gEntry splosni j)) = true ↔
      (gKeep splosni trig j && decide (gClenLabel j = gClenLabel i)) = true := by
    intro j _
    have hge : isGeneralEntryFor i (gEntry splosni j)
        = decide (gClenLabel j = gClenLabel i) := by
      unfold isGeneralEntryFor
      show (decide (splosniKat = splosniKat) && decide (gClenLabel j = gClenLabel i)) = _
      rw [decide_eq_true rfl, Bool.true_and]
    rw [hge]
  rw [List.countP_congr hcongr]
  exact countP_label_unique gClenLabel (List.range' 52 52) hlabnd i hmem
    (gKeep splosni trig)

/-- **C3**: for every input, the derived list's general-clause segment
is exactly the kept clauses of 52-103 in ascending numeric order (its
citation labels equal the filtered ascending range), every clause
number in the mandatory range 52-66 with non-empty catalog content
appears exactly once, and a clause number with empty or missing catalog
content contributes no requirement. -/
theorem C3_mandatory (ord : List String → List String) (clenMap : ClenMap)
    (splosni : List (String × String)) (priloga2 : List Priloga2Entry)
    (priloga1 : Option Priloga1Data) (eup_list raba_list : List String)
    (project_text : String)
    (hord : ∀ (l : List String) (x : String), x ∈ ord l → x ∈ l)
    (i : Nat) (h52 : 52 ≤ i) (h66 : i ≤ 66) :
    (((build_requirements_from_db ord clenMap splosni priloga2 priloga1
          eup_list raba_list project_text).filter
        (fun z => decide (z.kategorija = splosniKat))).map Zahteva.clen
      = ((List.range' 52 52).filter
          (gKeep splosni (triggered_optional_cleni project_text))).map gClenLabel) ∧
    (∀ content, dget (gClenKey i) splosni = some content → content ≠ "" →
      (build_requirements_from_db ord clenMap splosni priloga2 priloga1
          eup_list raba_list project_text).countP (isGeneralEntryFor i) = 1) ∧
    ((dget (gClenKey i) splosni).getD "" = "" →
      (build_requirements_from_db ord clenMap splosni priloga2 priloga1
          eup_list raba_list project_text).countP (isGeneralEntryFor i) = 0) := by
  rcases build_decomp ord clenMap splosni priloga2 priloga1 eup_list raba_list
    project_text hord with ⟨ps, es, p1s, heq, hnd, hcd, hkat, hkes, hkp1⟩
  set trig := triggered_optional_cleni project_text with htrig
  have hmem : i ∈ List.range' 52 52 := by
    rw [List.mem_range'_1]
    omega
  have hz0 : ∀ z ∈ ps.map emitOf, isGeneralEntryFor i z = false := by
    intro z hz
    rw [List.mem_map] at hz
    rcases hz with ⟨e, he, rfl⟩
    rcases hkat e he with ⟨sfx, hk, _⟩
    apply isGeneral_false_of_kat
    show e.kat ≠ splosniKat
    rw [hk]
    exact podrobni_ne_splosni sfx
  have hz1 : ∀ z ∈ es, isGeneralEntryFor i z = false := fun z hz =>
    isGeneral_false_of_kat (by rw [hkes z hz]; decide)
  have hz2 : ∀ z ∈ p1s, isGeneralEntryFor i z = false := fun z hz =>
    isGeneral_false_of_kat (by rw [hkp1 z hz]; decide)
  have hpi : ∀ (z : Zahteva) (s : String),
      isGeneralEntryFor i { z with id := s } = isGeneralEntryFor i z :=
    fun z s => rfl
  have hcount : ∀ b : Bool, gKeep splosni trig i = b →
      (build_requirements_from_db ord clenMap splosni priloga2 priloga1
        eup_list raba_list project_text).countP (isGeneralEntryFor i)
        = if b then 1 else 0 := by
    intro b hb
    rw [heq, assignIds_countP _ hpi]
    simp only [List.countP_append]
    rw [countP_zero_of_false hz0, countP_zero_of_false hz1,
      countP_zero_of_false hz2, gPhaseList_count splosni trig i hmem, hb]
    omega
  refine ⟨?_, ?_, ?_⟩
  · have hpk : ∀ (z : Zahteva) (s : String),
        (fun z : Zahteva => decide (z.kategorija = splosniKat)) { z with id := s }
          = (fun z : Zahteva => decide (z.kategorija = splosniKat)) z :=
      fun z s => rfl
    have hgc : ∀ (z : Zahteva) (s : String),
        Zahteva.clen { z with id := s } = Zahteva.clen z := fun z s => rfl
    rw [heq, assignIds_filter_map _ _ hpk hgc]
    simp only [List.filter_append]
    have hfG : (gPhaseList splosni trig).filter
        (fun z => decide (z.kategorija = splosniKat)) = gPhaseList splosni trig :=
      List.filter_eq_self.2 (fun z hz =>
        decide_eq_true (gPhaseList_kat splosni trig z hz))
    have hfLU : (ps.map emitOf).filter
        (fun z => decide (z.kategorija = splosniKat)) = [] := by
      rw [List.filter_eq_nil_iff]
      intro z hz hq
      have hq' := of_decide_eq_true hq
      rw [List.mem_map] at hz
      rcases hz with ⟨e, he, rfl⟩
      rcases hkat e he with ⟨sfx, hk, _⟩
      have : e.kat = splosniKat := hq'
      rw [hk] at this
      exact podrobni_ne_splosni sfx this
    have hfE : es.filter (fun z => decide (z.kategorija = splosniKat)) = [] := by
      rw [List.filter_eq_nil_iff]
      intro z hz hq
      have hq' := of_decide_eq_true hq
      rw [hkes z hz] at hq'
      exact absurd hq' (by decide)
    have hfP1 : p1s.filter (fun z => decide (z.kategorija = splosniKat)) = [] := by
      rw [List.filter_eq_nil_iff]
      intro z hz hq
      have hq' := of_decide_eq_true hq
      rw [hkp1 z hz] at hq'
      exact absurd hq' (by decide)
    rw [hfG, hfLU, hfE, hfP1, List.append_nil, List.append_nil, List.append_nil]
    unfold gPhaseList
    rw [map_filterMap_if]
    exact List.map_congr_left (fun a _ => rfl)
  · intro content hdg hne
    have hb : gKeep splosni trig i = true := by
      unfold gKeep
      rw [hdg, decide_eq_true h66, Bool.true_or, Bool.true_and]
      exact decide_eq_true hne
    rw [hcount true hb]
    rfl
  · intro hdg
    have hb : gKeep splosni trig i = false := by
      unfold gKeep
      cases hdge : dget (gClenKey i) splosni with
      | none => simp
      | some c =>
        rw [hdge] at hdg
        have : c = "" := hdg
        subst this
        simp
    rw [hcount false hb]
    rfl

/-- Witness for C3: in a run whose catalog has content for clause 52
and an empty entry for clause 53, clause 52 (mandatory) appears exactly
once and clause 53 contributes nothing. -/
theorem C3_mandatory_witness :
    (52 ≤ 52 ∧ 52 ≤ 66 ∧ dget (gClenKey 52) splosniW = some "(osnova) vsebina" ∧
      (dget (gClenKey 53) splosniW).getD "" = "") ∧
    (build_requirements_from_db (fun l => l) [] splosniW [] none [] [] "").countP
      (isGeneralEntryFor 52) = 1 ∧
    (build_requirements_from_db (fun l => l) [] splosniW [] none [] [] "").countP
      (isGeneralEntryFor 53) = 0 :=
  ⟨⟨le_rfl, by decide, by decide, by decide⟩,
   (C3_mandatory (fun l => l) [] splosniW [] none [] [] ""
       (fun _ _ h => h) 52 le_rfl (by decide)).2.1 "(osnova) vsebina"
     (by decide) (by decide),
   (C3_mandatory (fun l => l) [] splosniW [] none [] [] ""
       (fun _ _ h => h) 53 (by decide) (by decide)).2.2 (by decide)⟩

/-! ## The sort model: `strLeb` is a linear order, `insSort` is
set-extensional on duplicate-free inputs -/

theorem char_toNat_inj {a b : Char} (h : a.toNat = b.toNat) : a = b := by
  apply Char.eq_of_val_eq
  apply UInt32.eq_of_val_eq
  apply Fin.eq_of_val_eq
  exact h

theorem charLtb_asymm {a b : Char} (h₁ : charLtb a b = true)
    (h₂ : charLtb b a = true) : False := by
  have l₁ := of_decide_eq_true h₁
  have l₂ := of_decide_eq_true h₂
  omega

theorem charLtb_or {a b : Char} (h : a ≠ b) :
    charLtb a b = true ∨ charLtb b a = true := by
  have hne : a.toNat ≠ b.toNat := fun hn => h (char_toNat_inj hn)
  by_cases hlt : a.toNat < b.toNat
  · exact Or.inl (decide_eq_true hlt)
  · exact Or.inr (decide_eq_true (by omega))

theorem lexLe_cons (a b : Char) (as bs : List Char) :
    lexLe (a :: as) (b :: bs) = if a = b then lexLe as bs else charLtb a b := rfl

theorem lexLe_total : ∀ as bs : List Char, lexLe as bs = true ∨ lexLe bs as = true := by
  intro as
  induction as with
  | nil => intro bs; exact Or.inl rfl
  | cons a as ih =>
    intro bs
    cases bs with
    | nil => exact Or.inr rfl
    | cons b bs =>
      by_cases hab : a = b
      · subst hab
        rw [lexLe_cons, lexLe_cons, if_pos rfl, if_pos rfl]
        exact ih bs
      · rw [lexLe_cons, lexLe_cons, if_neg hab, if_neg (fun h => hab h.symm)]
        exact charLtb_or hab

theorem lexLe_antisymm : ∀ as bs : List Char,
    lexLe as bs = true → lexLe bs as = true → as = bs := by
  intro as
  induction as with
  | nil =>
    intro bs h₁ h₂
    cases bs with
    | nil => rfl
    | cons b bs => exact absurd h₂ (by simp [lexLe])
  | cons a as ih =>
    intro bs h₁ h₂
    cases bs with
    | nil => exact absurd h₁ (by simp [lexLe])
    | cons b bs =>
      by_cases hab : a = b
      · subst hab
        rw [lexLe_cons, if_pos rfl] at h₁ h₂
        rw [ih bs h₁ h₂]
      · rw [lexLe_cons, if_neg hab] at h₁
        rw [lexLe_cons, if_neg (fun h => hab h.symm)] at h₂
        exact absurd h₂ (fun h => charLtb_asymm h₁ h)

theorem lexLe_trans : ∀ as bs cs : List Char,
    lexLe as bs = true → lexLe bs cs = true → lexLe as cs = true := by
  intro as
  induction as with
  | nil => intro bs cs _ _; rfl
  | cons a as ih =>
    intro bs cs h₁ h₂
    cases bs with
    | nil => exact absurd h₁ (by simp [lexLe])
    | cons b bs =>
      cases cs with
      | nil => exact absurd h₂ (by simp [lexLe])
      | cons c cs =>
        by_cases hab : a = b
        · subst hab
          rw [lexLe_cons, if_pos rfl] at h₁
          by_cases hac : a = c
          · subst hac
            rw [lexLe_cons, if_pos rfl] at h₂ ⊢
            exact ih bs cs h₁ h₂
          · rw [lexLe_cons, if_neg hac] at h₂ ⊢
            exact h₂
        · rw [lexLe_cons, if_neg hab] at h₁
          by_cases hbc : b = c
          · subst hbc
            rw [lexLe_cons, if_neg hab]
            exact h₁
          · rw [lexLe_cons, if_neg hbc] at h₂
            have l₁ := of_decide_eq_true h₁
            have l₂ := of_decide_eq_true h₂
            have hac : a ≠ c := by
              intro h
              subst h
              omega
            rw [lexLe_cons, if_neg hac]
            exact decide_eq_true (by omega)

theorem strLeb_total (a b : String) : strLeb a b = true ∨ strLeb b a = true :=
  lexLe_total a.data b.data

theorem strLeb_antisymm {a b : String} (h₁ : strLeb a b = true)
    (h₂ : strLeb b a = true) : a = b := by
  have hd : a.data = b.data := lexLe_antisymm a.data b.data h₁ h₂
  cases a
  cases b
  cases hd
  rfl

theorem strLeb_trans {a b c : String} (h₁ : strLeb a b = true)
    (h₂ : strLeb b c = true) : strLeb a c = true :=
  lexLe_trans a.data b.data c.data h₁ h₂

theorem sortedInsert_cons (x y : String) (t : List String) :
    sortedInsert x (y :: t)
      = if strLeb x y then x :: y :: t else y :: sortedInsert x t := rfl

theorem mem_sortedInsert (x y : String) :
    ∀ l, y ∈ sortedInsert x l ↔ y = x ∨ y ∈ l := by
  intro l
  induction l with
  | nil => simp [sortedInsert]
  | cons z t ih =>
    rw [sortedInsert_cons]
    by_cases h : strLeb x z = true
    · rw [if_pos h]
      simp [List.mem_cons]
    · rw [if_neg h]
      simp only [List.mem_cons, ih]
      tauto

theorem pairwise_sortedInsert (x : String) :
    ∀ l, l.Pairwise (fun a b => strLeb a b = true) →
      (sortedInsert x l).Pairwise (fun a b => strLeb a b = true) := by
  intro l
  induction l with
  | nil => intro _; simp [sortedInsert]
  | cons z t ih =>
    intro hp
    have hz : ∀ b ∈ t, strLeb z b = true := (List.pairwise_cons.1 hp).1
    have ht : t.Pairwise (fun a b => strLeb a b = true) := (List.pairwise_cons.1 hp).2
    rw [sortedInsert_cons]
    by_cases h : strLeb x z = true
    · rw [if_pos h]
      refine List.pairwise_cons.2 ⟨?_, hp⟩
      intro b hb
      rcases List.mem_cons.1 hb with rfl | hbt
      · exact h
      · exact strLeb_trans h (hz b hbt)
    · rw [if_neg h]
      refine List.pairwise_cons.2 ⟨?_, ih ht⟩
      intro b hb
      rcases (mem_sortedInsert x b t).1 hb with rfl | hbt
      · rcases strLeb_total b z with h' | h'
        · exact absurd h' h
        · exact h'
      · exact hz b hbt

theorem nodup_sortedInsert (x : String) :
    ∀ l, x ∉ l → l.Nodup → (sortedInsert x l).Nodup := by
  intro l
  induction l with
  | nil => intro _ _; simp [sortedInsert]
  | cons z t ih =>
    intro hx hnd
    have hxz : x ≠ z := fun h => hx (h ▸ List.mem_cons_self _ _)
    have hxt : x ∉ t := fun h => hx (List.mem_cons_of_mem _ h)
    have hzt : z ∉ t := (List.nodup_cons.1 hnd).1
    have hndt : t.Nodup := (List.nodup_cons.1 hnd).2
    rw [sortedInsert_cons]
    by_cases h : strLeb x z = true
    · rw [if_pos h]
      exact List.nodup_cons.2 ⟨hx, hnd⟩
    · rw [if_neg h]
      refine List.nodup_cons.2 ⟨?_, ih hxt hndt⟩
      intro hmem
      rcases (mem_sortedInsert x z t).1 hmem with h' | h'
      · exact hxz h'.symm
      · exact hzt h'

theorem insSort_mem : ∀ (l : List String) (y : String), y ∈ insSort l ↔ y ∈ l := by
  intro l
  induction l with
  | nil => intro y; exact Iff.rfl
  | cons a t ih =>
    intro y
    show y ∈ sortedInsert a (insSort t) ↔ _
    rw [mem_sortedInsert, ih y]
    simp [List.mem_cons]

theorem insSort_pairwise :
    ∀ l : List String, (insSort l).Pairwise (fun a b => strLeb a b = true) := by
  intro l
  induction l with
  | nil => exact List.Pairwise.nil
  | cons a t ih => exact pairwise_sortedInsert a (insSort t) ih

theorem insSort_nodup : ∀ l : List String, l.Nodup → (insSort l).Nodup := by
  intro l
  induction l with
  | nil => intro _; exact List.Pairwise.nil
  | cons a t ih =>
    intro hnd
    have ha : a ∉ t := (List.nodup_cons.1 hnd).1
    have ha' : a ∉ insSort t := fun h => ha ((insSort_mem t a).1 h)
    exact nodup_sortedInsert a (insSort t) ha' (ih (List.nodup_cons.1 hnd).2)

theorem sorted_nodup_ext : ∀ l₁ l₂ : List String,
    l₁.Pairwise (fun a b => strLeb a b = true) →
    l₂.Pairwise (fun a b => strLeb a b = true) →
    l₁.Nodup → l₂.Nodup → (∀ x, x ∈ l₁ ↔ x ∈ l₂) → l₁ = l₂ := by
  intro l₁
  induction l₁ with
  | nil =>
    intro l₂ _ _ _ _ hm
    cases l₂ with
    | nil => rfl
    | cons b t₂ => exact absurd ((hm b).2 (List.mem_cons_self _ _)) (List.not_mem_nil _)
  | cons a t₁ ih =>
    intro l₂ hp₁ hp₂ hn₁ hn₂ hm
    cases l₂ with
    | nil => exact absurd ((hm a).1 (List.mem_cons_self _ _)) (List.not_mem_nil _)
    | cons b t₂ =>
      have hab : a = b := by
        by_contra hne
        rcases List.mem_cons.1 ((hm a).1 (List.mem_cons_self _ _)) with h | ha2t
        · exact hne h
        rcases List.mem_cons.1 ((hm b).2 (List.mem_cons_self _ _)) with h | hb1t
        · exact hne h.symm
        have h1 : strLeb a b = true := (List.pairwise_cons.1 hp₁).1 b hb1t
        have h2 : strLeb b a = true := (List.pairwise_cons.1 hp₂).1 a ha2t
        exact hne (strLeb_antisymm h1 h2)
      subst hab
      have hmt : ∀ x, x ∈ t₁ ↔ x ∈ t₂ := by
        intro x
        constructor
        · intro hx
          rcases List.mem_cons.1 ((hm x).1 (List.mem_cons_of_mem _ hx)) with rfl | h
          · exact absurd hx (List.nodup_cons.1 hn₁).1
          · exact h
        · intro hx
          rcases List.mem_cons.1 ((hm x).2 (List.mem_cons_of_mem _ hx)) with rfl | h
          · exact absurd hx (List.nodup_cons.1 hn₂).1
          · exact h
      rw [ih t₂ (List.pairwise_cons.1 hp₁).2 (List.pairwise_cons.1 hp₂).2
        (List.nodup_cons.1 hn₁).2 (List.nodup_cons.1 hn₂).2 hmt]

theorem insSort_ext {l₁ l₂ : List String} (h₁ : l₁.Nodup) (h₂ : l₂.Nodup)
    (hm : ∀ x, x ∈ l₁ ↔ x ∈ l₂) : insSort l₁ = insSort l₂ :=
  sorted_nodup_ext _ _ (insSort_pairwise l₁) (insSort_pairwise l₂)
    (insSort_nodup l₁ h₁) (insSort_nodup l₂ h₂)
    (fun x => by rw [insSort_mem, insSort_mem]; exact hm x)

/-! ## The derivation depends on the input codes only through their
normalized set -/

theorem refsGo_congr (orig₁ orig₂ : List String)
    (hm : ∀ x, x ∈ orig₁ ↔ x ∈ orig₂)
    (step₁ step₂ : String → String → DeriveState → DeriveState)
    (hstep : ∀ r k st, step₁ r k st = step₂ r k st) :
    ∀ (rs : List String) (kat : String) (st : DeriveState),
      refsGo step₁ orig₁ rs kat st = refsGo step₂ orig₂ rs kat st := by
  intro rs
  induction rs with
  | nil => intro kat st; rfl
  | cons r t ih =>
    intro kat st
    show refsGo step₁ orig₁ t kat
        (if r ∈ orig₁ then st else step₁ r (kat ++ napotiloSuffix) st)
      = refsGo step₂ orig₂ t kat
        (if r ∈ orig₂ then st else step₂ r (kat ++ napotiloSuffix) st)
    by_cases hr : r ∈ orig₁
    · rw [if_pos hr, if_pos ((hm r).1 hr)]
      exact ih kat st
    · rw [if_neg hr, if_neg (fun h => hr ((hm r).2 h)), hstep]
      exact ih kat _

theorem addPP_congr (ord : List String → List String) (clenMap : ClenMap)
    (orig₁ orig₂ : List String) (hm : ∀ x, x ∈ orig₁ ↔ x ∈ orig₂) :
    ∀ (fuel : Nat) (raba kat : String) (st : DeriveState),
      add_podrobni_pogoji ord clenMap orig₁ fuel raba kat st
        = add_podrobni_pogoji ord clenMap orig₂ fuel raba kat st := by
  intro fuel
  induction fuel with
  | zero => intro raba kat st; rfl
  | succ fuel ih =>
    intro raba kat st
    by_cases hv : pyUpper raba ∈ st.dodane_namenske_rabe
    · simp [add_podrobni_pogoji, hv]
    · cases hcd : dget (pyUpper raba) clenMap with
      | none => simp [add_podrobni_pogoji, hv, hcd]
      | some cd =>
        have h₁ : add_podrobni_pogoji ord clenMap orig₁ (fuel + 1) raba kat st =
            refsGo (add_podrobni_pogoji ord clenMap orig₁ fuel) orig₁
              (extract_referenced_namenske_rabe ord clenMap
                (format_structured_content cd.content_structured)) kat
              { zahteve := st.zahteve ++
                  [{ kategorija := kat,
                     naslov := mkNaslovNRP (pyUpper raba) cd,
                     besedilo := format_structured_content cd.content_structured,
                     clen := mkClenLabelNRP cd, id := "" }],
                dodane_namenske_rabe := sadd (pyUpper raba) st.dodane_namenske_rabe,
                dodani_cleni := sadd cd.parent_clen_key st.dodani_cleni } := by
          simp [add_podrobni_pogoji, hv, hcd]
        have h₂ : add_podrobni_pogoji ord clenMap orig₂ (fuel + 1) raba kat st =
            refsGo (add_podrobni_pogoji ord clenMap orig₂ fuel) orig₂
              (extract_referenced_namenske_rabe ord clenMap
                (format_structured_content cd.content_structured)) kat
              { zahteve := st.zahteve ++
                  [{ kategorija := kat,
                     naslov := mkNaslovNRP (pyUpper raba) cd,
                     besedilo := format_structured_content cd.content_structured,
                     clen := mkClenLabelNRP cd, id := "" }],
                dodane_namenske_rabe := sadd (pyUpper raba) st.dodane_namenske_rabe,
                dodani_cleni := sadd cd.parent_clen_key st.dodani_cleni } := by
          simp [add_podrobni_pogoji, hv, hcd]
        rw [h₁, h₂]
        exact refsGo_congr orig₁ orig₂ hm _ _ (fun r k s => ih r k s) _ _ _

theorem landUsePhase_congr (ord : List String → List String) (clenMap : ClenMap)
    (orig₁ orig₂ : List String) (hm : ∀ x, x ∈ orig₁ ↔ x ∈ orig₂) (fuel : Nat) :
    ∀ (rabas : List String) (st : DeriveState),
      landUsePhase ord clenMap orig₁ fuel rabas st
        = landUsePhase ord clenMap orig₂ fuel rabas st := by
  intro rabas
  induction rabas with
  | nil => intro st; rfl
  | cons raba rs ih =>
    intro st
    show landUsePhase ord clenMap orig₁ fuel rs
        (add_podrobni_pogoji ord clenMap orig₁ fuel raba podrobniKat st)
      = landUsePhase ord clenMap orig₂ fuel rs
        (add_podrobni_pogoji ord clenMap orig₂ fuel raba podrobniKat st)
    rw [addPP_congr ord clenMap orig₁ orig₂ hm fuel raba podrobniKat st]
    exact ih _

/-- **C9**: derivation runs whose land-use inputs normalize to the same
code set — for the same catalog, planning units, project text and the
same iteration order of the referenced-code sets — produce identical
ordered requirement lists, ids included. (The claim as written, without
fixing the set iteration order, is refuted by `C9_counterexample`.) -/
theorem C9_amended (ord : List String → List String) (clenMap : ClenMap)
    (splosni : List (String × String)) (priloga2 : List Priloga2Entry)
    (priloga1 : Option Priloga1Data) (eup_list : List String)
    (project_text : String) (raba₁ raba₂ : List String)
    (hset : List.Perm (original_rabe_upper raba₁) (original_rabe_upper raba₂)) :
    build_requirements_from_db ord clenMap splosni priloga2 priloga1
        eup_list raba₁ project_text
      = build_requirements_from_db ord clenMap splosni priloga2 priloga1
        eup_list raba₂ project_text := by
  have hm : ∀ x, x ∈ original_rabe_upper raba₁ ↔ x ∈ original_rabe_upper raba₂ :=
    fun x => hset.mem_iff
  have hnd₁ : (original_rabe_upper raba₁).Nodup := List.nodup_dedup _
  have hnd₂ : (original_rabe_upper raba₂).Nodup := List.nodup_dedup _
  have hciste : ciste_namenske_rabe (original_rabe_upper raba₁) clenMap
      = ciste_namenske_rabe (original_rabe_upper raba₂) clenMap := by
    unfold ciste_namenske_rabe
    apply insSort_ext (hnd₁.filter _) (hnd₂.filter _)
    intro x
    rw [List.mem_filter, List.mem_filter, hm x]
  show assignIds ((eupPhase priloga2 eup_list
      (landUsePhase ord clenMap (original_rabe_upper raba₁) clenMap.length
        (ciste_namenske_rabe (original_rabe_upper raba₁) clenMap)
        (splosniPhase splosni (triggered_optional_cleni project_text)
          { zahteve := [], dodane_namenske_rabe := [], dodani_cleni := [] }))).zahteve
      ++ priloga1Phase priloga1 (ciste_namenske_rabe (original_rabe_upper raba₁) clenMap))
    = assignIds ((eupPhase priloga2 eup_list
      (landUsePhase ord clenMap (original_rabe_upper raba₂) clenMap.length
        (ciste_namenske_rabe (original_rabe_upper raba₂) clenMap)
        (splosniPhase splosni (triggered_optional_cleni project_text)
          { zahteve := [], dodane_namenske_rabe := [], dodani_cleni := [] }))).zahteve
      ++ priloga1Phase priloga1 (ciste_namenske_rabe (original_rabe_upper raba₂) clenMap))
  rw [hciste, landUsePhase_congr ord clenMap (original_rabe_upper raba₁)
    (original_rabe_upper raba₂) hm clenMap.length]

/-- Witness for C9: two input lists with different order, case,
whitespace and duplicates but the same normalized code set give the
same derivation over the cyclic catalog. -/
theorem C9_amended_witness :
    List.Perm (original_rabe_upper ["b", "a", " A"])
      (original_rabe_upper ["A", "B", "b"]) ∧
    build_requirements_from_db (fun l => l) catCyc [] [] none
        [] ["b", "a", " A"] ""
      = build_requirements_from_db (fun l => l) catCyc [] [] none
        [] ["A", "B", "b"] "" :=
  ⟨by decide,
   C9_amended (fun l => l) catCyc [] [] none [] "" ["b", "a", " A"]
     ["A", "B", "b"] (by decide)⟩

/-- Counterexample to C9 as stated: the referenced-code set of a clause
is iterated in Python hash-set order, which the spec's inputs do not
determine.  Two legitimate iteration orders of the same reference sets
(identity and reversal, both returning exactly the set's elements)
yield different requirement lists for identical catalog contents and
identical inputs: with `AA` referencing both `BB` and `CC` and `BB`
referencing `CC`, one order emits `CC` via `BB` under a doubly extended
`- Napotilo - Napotilo` category, the other directly under a single
extension, and the emission order of `BB`/`CC` also flips. -/
theorem C9_counterexample :
    (∀ (l : List String) (x : String), x ∈ (fun l : List String => l) l → x ∈ l) ∧
    (∀ (l : List String) (x : String),
      x ∈ (fun l : List String => l.reverse) l → x ∈ l) ∧
    build_requirements_from_db (fun l => l) c9cat [] [] none [] ["AA"] ""
      ≠ build_requirements_from_db (fun l => l.reverse) c9cat [] [] none
          [] ["AA"] "" :=
  ⟨fun _ _ h => h, fun _ _ h => List.mem_reverse.1 h, by decide⟩

end Mnenja
